import Mathlib

/-!
Verification of the two solver cores of this repository against its
specification.

The development shallow-embeds the two programs:

* `belts/main.py` — a lower-bounded multi-source flow solver built on an
  external max-flow kernel (networkx `preflow_push`).  The kernel is out of
  scope per the spec; here its output is a parameter (a finite flow
  assignment on the auxiliary graph) and the kernel's guarantees (capacity
  respect, conservation, maximality, and the residual-reachability cut
  partition) are hypotheses of the theorems that need them.
* `factory/main.py` — an LP-based production planner built on an external
  LP kernel (scipy `linprog`).  Likewise the kernel's returned solution
  vectors are parameters, and the kernel contract (returned points satisfy
  the constraint system; returned points are optimal) appears as
  hypotheses.

Numbers: the Python code computes with floats; the embedding idealizes
arithmetic as exact rationals (ℚ).  Because the kernel of this Lean
version cannot reduce the standard `Rat` field operations (they are marked
irreducible), the embedding is written with the equivalent reducible
operations `qadd`, `qsub`, `qmul`, `qdiv`, `qneg`, `qabs`, `qmax`, `qsum`
defined below; each is proved equal to the corresponding standard
operation, and symbolic proofs rewrite with those equations first.
-/

/-! ## Reducible rational arithmetic -/

/-- Addition on ℚ via `mkRat`, kernel-reducible; equals `· + ·` by `qadd_eq`. -/
def qadd (a b : ℚ) : ℚ := mkRat (a.num * b.den + b.num * a.den) (a.den * b.den)

/-- Negation on ℚ via `mkRat`, kernel-reducible; equals `Neg.neg` by `qneg_eq`. -/
def qneg (a : ℚ) : ℚ := mkRat (-a.num) a.den

/-- Subtraction on ℚ, kernel-reducible; equals `· - ·` by `qsub_eq`. -/
def qsub (a b : ℚ) : ℚ := qadd a (qneg b)

/-- Multiplication on ℚ via `mkRat`, kernel-reducible; equals `· * ·` by `qmul_eq`. -/
def qmul (a b : ℚ) : ℚ := mkRat (a.num * b.num) (a.den * b.den)

/-- Inverse on ℚ via `mkRat`, kernel-reducible; equals `Inv.inv` by `qinv_eq`. -/
def qinv (a : ℚ) : ℚ := mkRat (Int.sign a.num * a.den) a.num.natAbs

/-- Division on ℚ, kernel-reducible; equals `· / ·` by `qdiv_eq`. -/
def qdiv (a b : ℚ) : ℚ := qmul a (qinv b)

/-- Absolute value on ℚ, kernel-reducible; equals `|·|` by `qabs_eq`. -/
def qabs (a : ℚ) : ℚ := if a < 0 then qneg a else a

/-- Binary maximum on ℚ, kernel-reducible; equals `max` by `qmax_eq`. -/
def qmax (a b : ℚ) : ℚ := if a ≤ b then b else a

/-- Sum of a list of rationals by `qadd`, kernel-reducible; equals `List.sum`. -/
def qsum (l : List ℚ) : ℚ := l.foldr qadd 0

theorem qadd_eq (a b : ℚ) : qadd a b = a + b := by
  have ha : (a.den : ℚ) ≠ 0 := by exact_mod_cast a.den_nz
  have hb : (b.den : ℚ) ≠ 0 := by exact_mod_cast b.den_nz
  rw [qadd, Rat.mkRat_eq_div]
  push_cast
  conv_rhs => rw [← Rat.num_div_den a, ← Rat.num_div_den b]
  field_simp

theorem qneg_eq (a : ℚ) : qneg a = -a := by
  rw [qneg, Rat.mkRat_eq_div]
  push_cast
  rw [neg_div, Rat.num_div_den]

theorem qsub_eq (a b : ℚ) : qsub a b = a - b := by
  rw [qsub, qadd_eq, qneg_eq, sub_eq_add_neg]

theorem qmul_eq (a b : ℚ) : qmul a b = a * b := by
  have ha : (a.den : ℚ) ≠ 0 := by exact_mod_cast a.den_nz
  have hb : (b.den : ℚ) ≠ 0 := by exact_mod_cast b.den_nz
  rw [qmul, Rat.mkRat_eq_div]
  push_cast
  conv_rhs => rw [← Rat.num_div_den a, ← Rat.num_div_den b]
  field_simp

theorem qinv_eq (a : ℚ) : qinv a = a⁻¹ := by
  rw [qinv, Rat.inv_def', Rat.divInt_eq_div, Rat.mkRat_eq_div]
  rcases lt_trichotomy a.num 0 with h | h | h
  · push_cast [Int.sign_eq_neg_one_of_neg h]
    rw [Int.cast_natAbs]
    push_cast
    rw [abs_of_neg (by exact_mod_cast h : (a.num : ℚ) < 0)]
    rw [neg_one_mul, div_neg, neg_div, neg_neg]
  · simp [h]
  · push_cast [Int.sign_eq_one_of_pos h]
    rw [Int.cast_natAbs]
    push_cast
    rw [abs_of_pos (by exact_mod_cast h : (0 : ℚ) < a.num)]
    rw [one_mul]

theorem qdiv_eq (a b : ℚ) : qdiv a b = a / b := by
  rw [qdiv, qmul_eq, qinv_eq, div_eq_mul_inv]

theorem qabs_eq (a : ℚ) : qabs a = |a| := by
  rw [qabs]
  split
  · rw [qneg_eq, abs_of_neg (by assumption)]
  · rw [abs_of_nonneg (le_of_not_lt (by assumption))]

theorem qmax_eq (a b : ℚ) : qmax a b = max a b := by
  rw [qmax]
  split
  · rw [max_eq_right (by assumption)]
  · rw [max_eq_left (le_of_not_le (by assumption))]

theorem qsum_eq (l : List ℚ) : qsum l = l.sum := by
  induction l with
  | nil => rfl
  | cons a t ih => rw [qsum, List.foldr_cons, qadd_eq, List.sum_cons, ← ih]; rfl

/-! ## Generic list helpers

`pyLookup` models building a Python dict from a list of key/value pairs and
then calling `.get`: on duplicate keys the last value wins.  `keysFirst`
models the iteration order of such a dict: keys in first-occurrence order.
`sortBy` is a stable insertion sort standing in for Python's stable `sorted`.
-/

/-- Value a Python dict built from the pairs `l` gives for key `k`
(`None` when absent); on duplicate keys the last pair wins. -/
def pyLookup {β : Type} (l : List (String × β)) (k : String) : Option β :=
  (l.reverse.find? (fun p => p.1 = k)).map (·.2)

/-- Whether a Python dict built from `l` has key `k`. -/
def hasKey {β : Type} (l : List (String × β)) (k : String) : Bool :=
  l.any (fun p => p.1 = k)

/-- First occurrences of the elements of `l`, in order: the iteration order
of a Python dict or the order-insensitive content of a Python set. -/
def dedupFirst {α : Type} [DecidableEq α] : List α → List α
  | [] => []
  | x :: xs => x :: (dedupFirst xs).filter (fun y => y ≠ x)

theorem mem_dedupFirst {α : Type} [DecidableEq α] {a : α} :
    ∀ {l : List α}, a ∈ dedupFirst l ↔ a ∈ l
  | [] => Iff.rfl
  | x :: xs => by
    rw [dedupFirst, List.mem_cons, List.mem_cons]
    by_cases h : a = x
    · simp [h]
    · simp [List.mem_filter, mem_dedupFirst, h]

theorem nodup_dedupFirst {α : Type} [DecidableEq α] :
    ∀ {l : List α}, (dedupFirst l).Nodup
  | [] => List.nodup_nil
  | x :: xs => by
    rw [dedupFirst]
    refine List.nodup_cons.mpr ⟨fun hmem => ?_, List.Nodup.filter _ nodup_dedupFirst⟩
    have := List.mem_filter.mp hmem
    simp at this

/-- Insert `a` into `l` before the first element it compares `le` to:
the inner step of a stable insertion sort. -/
def insSorted {α : Type} (le : α → α → Bool) (a : α) : List α → List α
  | [] => [a]
  | b :: bs => if le a b then a :: b :: bs else b :: insSorted le a bs

/-- Stable insertion sort, modelling Python's `sorted`. -/
def sortBy {α : Type} (le : α → α → Bool) (l : List α) : List α :=
  l.foldr (insSorted le) []

theorem mem_insSorted {α : Type} {le : α → α → Bool} {a b : α} :
    ∀ {l : List α}, a ∈ insSorted le b l ↔ a = b ∨ a ∈ l
  | [] => by simp [insSorted]
  | c :: cs => by
    rw [insSorted]
    split
    · simp
    · rw [List.mem_cons, List.mem_cons, mem_insSorted]
      tauto

theorem mem_sortBy {α : Type} {le : α → α → Bool} {a : α} :
    ∀ {l : List α}, a ∈ sortBy le l ↔ a ∈ l
  | [] => Iff.rfl
  | c :: cs => by
    rw [sortBy, List.foldr_cons, mem_insSorted, List.mem_cons]
    exact or_congr Iff.rfl (mem_sortBy)

/-- Lexicographic order on character lists by code point, as Python compares
strings. -/
def listLexLe : List Char → List Char → Bool
  | [], _ => true
  | _ :: _, [] => false
  | a :: as, b :: bs => if a = b then listLexLe as bs else decide (a < b)

/-- String comparison by code points, as Python's `<=` on `str`. -/
def strLe (a b : String) : Bool := listLexLe a.data b.data

/-- Python's `sorted` on strings. -/
def sortStr (l : List String) : List String := sortBy strLe l

theorem mem_sortStr {a : String} {l : List String} : a ∈ sortStr l ↔ a ∈ l :=
  mem_sortBy

/-! ## Reachability by bounded breadth-first closure

Models graph reachability as computed by the max-flow kernel's residual
traversal (for the min-cut partition) and as needed to state "a node can
reach the sink".  `bfsClosure adj V start` saturates `start` under the
adjacency `adj` restricted to vertices of `V`; `V.length` rounds suffice.
-/

/-- One saturation step: add every vertex of `V` not yet in `S` that is
adjacent from some member of `S`. -/
def bfsStep (adj : String → String → Bool) (V : List String) (S : List String) :
    List String :=
  S ++ V.filter (fun v => !(S.contains v) && S.any (fun u => adj u v))

/-- Saturation of `start` under `adj` within `V`. -/
def bfsClosure (adj : String → String → Bool) (V : List String)
    (start : List String) : List String :=
  (bfsStep adj V)^[V.length] start

theorem subset_bfsStep {adj : String → String → Bool} {V S : List String} :
    S ⊆ bfsStep adj V S :=
  List.subset_append_left _ _

theorem subset_bfsIter {adj : String → String → Bool} {V S : List String} :
    ∀ n, S ⊆ (bfsStep adj V)^[n] S := by
  intro n
  induction n generalizing S with
  | zero => exact fun a h => h
  | succ n ih =>
    rw [Function.iterate_succ_apply]
    exact fun a h => ih (subset_bfsStep h)

theorem bfsStep_subset {adj : String → String → Bool} {V S : List String}
    (hS : S ⊆ V) : bfsStep adj V S ⊆ V := by
  intro a ha
  rcases List.mem_append.mp ha with h | h
  · exact hS h
  · exact List.mem_of_mem_filter h

theorem bfsIter_subset {adj : String → String → Bool} {V S : List String}
    (hS : S ⊆ V) : ∀ n, (bfsStep adj V)^[n] S ⊆ V := by
  intro n
  induction n generalizing S with
  | zero => exact hS
  | succ n ih =>
    rw [Function.iterate_succ_apply]
    exact ih (bfsStep_subset hS)

theorem bfsStep_nodup {adj : String → String → Bool} {V S : List String}
    (hV : V.Nodup) (hS : S.Nodup) : (bfsStep adj V S).Nodup := by
  rw [bfsStep]
  refine List.Nodup.append hS (List.Nodup.filter _ hV) ?_
  intro a haS haF
  have := List.of_mem_filter haF
  rw [Bool.and_eq_true, Bool.not_eq_true'] at this
  exact absurd (List.elem_eq_true_of_mem haS) (by simp [List.contains] at this; simp [this.1])

theorem bfsStep_fix_of_eq_length {adj : String → String → Bool} {V S : List String}
    (h : (bfsStep adj V S).length = S.length) : bfsStep adj V S = S := by
  rw [bfsStep] at h ⊢
  have : (V.filter (fun v => !(S.contains v) && S.any (fun u => adj u v))).length = 0 := by
    rw [List.length_append] at h
    omega
  rw [List.length_eq_zero] at this
  rw [this, List.append_nil]

theorem bfsStep_of_fix {adj : String → String → Bool} {V S : List String}
    (h : bfsStep adj V S = S) : ∀ n, (bfsStep adj V)^[n] S = S := by
  intro n
  induction n with
  | zero => rfl
  | succ n ih => rw [Function.iterate_succ_apply, h, ih]

theorem length_le_of_nodup_subset {α : Type} [DecidableEq α] {S V : List α}
    (hnd : S.Nodup) (hsub : S ⊆ V) (hV : V.Nodup) : S.length ≤ V.length := by
  have h1 : S.toFinset.card = S.length := List.toFinset_card_of_nodup hnd
  have h2 : V.toFinset.card = V.length := List.toFinset_card_of_nodup hV
  have h3 : S.toFinset ⊆ V.toFinset := by
    intro a ha
    exact List.mem_toFinset.mpr (hsub (List.mem_toFinset.mp ha))
  calc S.length = S.toFinset.card := h1.symm
    _ ≤ V.toFinset.card := Finset.card_le_card h3
    _ = V.length := h2

/-- After enough rounds the saturation is a fixpoint. -/
theorem bfsClosure_fix {adj : String → String → Bool} {V start : List String}
    (hV : V.Nodup) (hstart : start.Nodup) (hsub : start ⊆ V) (hne : start ≠ []) :
    bfsStep adj V (bfsClosure adj V start) = bfsClosure adj V start := by
  have key : ∀ n, bfsStep adj V ((bfsStep adj V)^[n] start) = (bfsStep adj V)^[n] start ∨
      start.length + n ≤ ((bfsStep adj V)^[n] start).length := by
    intro n
    induction n with
    | zero => right; simp
    | succ n ih =>
      rcases ih with hfix | hlen
      · left
        rw [Function.iterate_succ_apply', hfix, hfix]
      · by_cases hfix2 : bfsStep adj V ((bfsStep adj V)^[n] start) = (bfsStep adj V)^[n] start
        · left
          rw [Function.iterate_succ_apply', hfix2, hfix2]
        · right
          rw [Function.iterate_succ_apply']
          have hmono : ((bfsStep adj V)^[n] start).length ≤
              (bfsStep adj V ((bfsStep adj V)^[n] start)).length := by
            rw [bfsStep, List.length_append]
            omega
          rcases Nat.lt_or_ge ((bfsStep adj V)^[n] start).length
              (bfsStep adj V ((bfsStep adj V)^[n] start)).length with hlt | hge
          · omega
          · exact absurd (bfsStep_fix_of_eq_length (Nat.le_antisymm hge hmono)) hfix2
  rcases key V.length with hfix | hlen
  · exact hfix
  · exfalso
    have hnodup : ((bfsStep adj V)^[V.length] start).Nodup := by
      clear hlen
      induction V.length with
      | zero => exact hstart
      | succ n ih =>
        rw [Function.iterate_succ_apply']
        exact bfsStep_nodup hV ih
    have hsubV : ((bfsStep adj V)^[V.length] start) ⊆ V := bfsIter_subset hsub _
    have hle := length_le_of_nodup_subset hnodup hsubV hV
    have : 1 ≤ start.length := by
      cases start with
      | nil => exact absurd rfl hne
      | cons a t => simp
    omega

/-- The saturation is closed: an `adj`-edge from a member into `V` stays inside. -/
theorem bfsClosure_closed {adj : String → String → Bool} {V start : List String}
    (hV : V.Nodup) (hstart : start.Nodup) (hsub : start ⊆ V) (hne : start ≠ [])
    {u v : String} (hu : u ∈ bfsClosure adj V start) (hv : v ∈ V)
    (hadj : adj u v = true) : v ∈ bfsClosure adj V start := by
  by_contra hvn
  have hfix := @bfsClosure_fix adj V start hV hstart hsub hne
  apply hvn
  rw [← hfix, bfsStep, List.mem_append]
  right
  refine List.mem_filter.mpr ⟨hv, ?_⟩
  rw [Bool.and_eq_true, Bool.not_eq_true']
  constructor
  · rw [← Bool.not_eq_true]
    intro hcon
    exact hvn (List.mem_of_elem_eq_true hcon)
  · exact List.any_eq_true.mpr ⟨u, hu, hadj⟩

theorem bfsIter_sound {adj : String → String → Bool} {V start : List String} :
    ∀ {n : ℕ} {v : String}, v ∈ (bfsStep adj V)^[n] start →
    ∃ s ∈ start, Relation.ReflTransGen (fun a b => adj a b = true ∧ b ∈ V) s v := by
  intro n
  induction n with
  | zero => exact fun hv => ⟨_, hv, Relation.ReflTransGen.refl⟩
  | succ n ih =>
    intro v hv
    rw [Function.iterate_succ_apply'] at hv
    rcases List.mem_append.mp hv with h | h
    · exact ih h
    · have h1 := List.mem_of_mem_filter h
      have h2 := List.of_mem_filter h
      rw [Bool.and_eq_true] at h2
      rcases List.any_eq_true.mp h2.2 with ⟨u, hu, hadj⟩
      rcases ih hu with ⟨s, hs, hchain⟩
      exact ⟨s, hs, hchain.tail ⟨hadj, h1⟩⟩

/-- Soundness: members of the saturation are genuinely reachable. -/
theorem bfsClosure_sound {adj : String → String → Bool} {V start : List String}
    {v : String} (hv : v ∈ bfsClosure adj V start) :
    ∃ s ∈ start, Relation.ReflTransGen (fun a b => adj a b = true ∧ b ∈ V) s v :=
  bfsIter_sound hv

/-- Completeness: reachable vertices are members of the saturation. -/
theorem bfsClosure_complete {adj : String → String → Bool} {V start : List String}
    (hV : V.Nodup) (hstart : start.Nodup) (hsub : start ⊆ V) (hne : start ≠ [])
    {s v : String} (hs : s ∈ start)
    (hchain : Relation.ReflTransGen (fun a b => adj a b = true ∧ b ∈ V) s v) :
    v ∈ bfsClosure adj V start := by
  induction hchain with
  | refl => exact subset_bfsIter _ hs
  | tail _ hstep ih => exact bfsClosure_closed hV hstart hsub hne ih hstep.2 hstep.1

/-! ## The `__` separator on node names

The belts core encodes split nodes as `name + "__in"` / `name + "__out"` and
recovers a base name with `mapped.split('__', 1)[0]`.  `baseChars` is that
prefix-before-the-first-`__` operation on character lists; `sepOK` is the
class of names on which the encoding is injective (no two consecutive
underscores, not ending in an underscore).
-/

/-- Whether two consecutive underscores occur in the list. -/
def hasDoubleUS : List Char → Bool
  | [] => false
  | [_] => false
  | a :: b :: rest => (a = '_' && b = '_') || hasDoubleUS (b :: rest)

/-- Characters before the first occurrence of `"__"`; the whole list when
there is none.  Python's `s.split('__', 1)[0]`. -/
def baseChars : List Char → List Char
  | [] => []
  | [c] => [c]
  | a :: b :: rest => if a = '_' ∧ b = '_' then [] else a :: baseChars (b :: rest)

/-- Python's `mapped_node.split('__', 1)[0]` (the code first tests
`'__' in mapped_node`, but the split returns the whole string anyway when
the separator is absent). -/
def baseName (s : String) : String := String.mk (baseChars s.data)

/-- Names on which the `__in` / `__out` encoding is unambiguous. -/
def sepOK (s : String) : Bool :=
  !hasDoubleUS s.data && !(s.data.getLast? == some '_')

theorem baseChars_of_no_sep : ∀ {l : List Char}, hasDoubleUS l = false → baseChars l = l
  | [] => fun _ => rfl
  | [c] => fun _ => rfl
  | a :: b :: rest => by
    intro h
    rw [hasDoubleUS, Bool.or_eq_false_iff, Bool.and_eq_false_iff] at h
    rw [baseChars, if_neg, baseChars_of_no_sep h.2]
    rintro ⟨ha, hb⟩
    rcases h.1 with hc | hc <;> simp [ha, hb] at hc

theorem hasDoubleUS_append_sep (r : List Char) :
    ∀ (l : List Char), hasDoubleUS (l ++ '_' :: '_' :: r) = true
  | [] => by simp [hasDoubleUS]
  | [c] => by simp [hasDoubleUS]
  | a :: b :: rest => by
    rw [List.cons_append, List.cons_append, hasDoubleUS, ← List.cons_append,
      hasDoubleUS_append_sep r (b :: rest), Bool.or_true]

theorem baseChars_append_sep {l : List Char} (r : List Char)
    (h1 : hasDoubleUS l = false) (h2 : l.getLast? ≠ some '_') :
    baseChars (l ++ '_' :: '_' :: r) = l := by
  induction l with
  | nil => simp [baseChars]
  | cons a t ih =>
    cases t with
    | nil =>
      have ha : a ≠ '_' := by
        intro hc
        exact h2 (by simp [hc])
      simp [baseChars, ha]
    | cons b t' =>
      rw [hasDoubleUS, Bool.or_eq_false_iff, Bool.and_eq_false_iff] at h1
      have h2' : (b :: t').getLast? ≠ some '_' := by
        rwa [List.getLast?_cons_cons] at h2
      have hnotboth : ¬(a = '_' ∧ b = '_') := by
        rintro ⟨ha, hb⟩
        rcases h1.1 with hc | hc <;> simp [ha, hb] at hc
      have hih := ih h1.2 h2'
      rw [List.cons_append] at hih
      simp only [List.cons_append, baseChars, List.append_eq]
      rw [if_neg hnotboth, hih]

theorem baseName_of_sepOK {v : String} (h : sepOK v = true) : baseName v = v := by
  simp only [sepOK, Bool.and_eq_true, Bool.not_eq_true'] at h
  exact String.ext (baseChars_of_no_sep h.1)

theorem baseName_append_in {v : String} (h : sepOK v = true) :
    baseName (v ++ "__in") = v := by
  simp only [sepOK, Bool.and_eq_true, Bool.not_eq_true', beq_eq_false_iff_ne] at h
  refine String.ext ?_
  rw [baseName, String.data_append]
  exact baseChars_append_sep _ h.1 h.2

theorem baseName_append_out {v : String} (h : sepOK v = true) :
    baseName (v ++ "__out") = v := by
  simp only [sepOK, Bool.and_eq_true, Bool.not_eq_true', beq_eq_false_iff_ne] at h
  refine String.ext ?_
  rw [baseName, String.data_append]
  exact baseChars_append_sep _ h.1 h.2

theorem sepOK_ne_append_sep {v w : String} (h : sepOK v = true) {r : String}
    (hr : r.data = '_' :: '_' :: (r.data.drop 2)) : v ≠ w ++ r := by
  intro hc
  simp only [sepOK, Bool.and_eq_true, Bool.not_eq_true'] at h
  have hd : v.data = w.data ++ r.data := by rw [hc, String.data_append]
  rw [hr] at hd
  have hdus := hasDoubleUS_append_sep (r.data.drop 2) w.data
  rw [← hd] at hdus
  rw [hdus] at h
  exact absurd h.1 (by decide)

theorem append_in_inj {v w : String} (h : v ++ "__in" = w ++ "__in") : v = w := by
  have hd : v.data ++ ("__in").data = w.data ++ ("__in").data := by
    rw [← String.data_append, ← String.data_append, h]
  exact String.ext (List.append_cancel_right hd)

theorem append_out_inj {v w : String} (h : v ++ "__out" = w ++ "__out") : v = w := by
  have hd : v.data ++ ("__out").data = w.data ++ ("__out").data := by
    rw [← String.data_append, ← String.data_append, h]
  exact String.ext (List.append_cancel_right hd)

theorem append_in_ne_append_out (v w : String) : v ++ "__in" ≠ w ++ "__out" := by
  intro hc
  have hd : v.data ++ ("__in").data = w.data ++ ("__out").data := by
    rw [← String.data_append, ← String.data_append, hc]
  have h1 : (v.data ++ ("__in").data).getLast? = some 'n' := by
    rw [List.getLast?_append]
    rfl
  have h2 : (w.data ++ ("__out").data).getLast? = some 't' := by
    rw [List.getLast?_append]
    rfl
  rw [hd, h2] at h1
  exact absurd (Option.some.inj h1) (by decide)

theorem self_ne_append_in (v : String) : v ≠ v ++ "__in" := by
  intro hc
  have hd : v.data = v.data ++ ("__in").data := by rw [← String.data_append, ← hc]
  have hl := congrArg List.length hd
  rw [List.length_append] at hl
  simp at hl

theorem self_ne_append_out (v : String) : v ≠ v ++ "__out" := by
  intro hc
  have hd : v.data = v.data ++ ("__out").data := by rw [← String.data_append, ← hc]
  have hl := congrArg List.length hd
  rw [List.length_append] at hl
  simp at hl

/-! ## Belts core — data model (belts/main.py)

An input edge carries `from`, `to`, an optional `lo` (the constructor's
normalization loop defaults it to 0, modelled by `BeltEdge.loV`) and `hi`.
Fields `src`/`dst` stand for the JSON keys `from`/`to` (`from` is reserved
in Lean).
-/

/-- Numerical tolerance of the belts core (`NUMERICAL_TOLERANCE = 1e-9`). -/
def tolB : ℚ := mkRat 1 1000000000

structure BeltEdge where
  src : String
  dst : String
  loOpt : Option ℚ
  hi : ℚ
deriving DecidableEq

/-- The lower bound after the constructor's normalization
(`if 'lo' not in edge: edge['lo'] = 0.0`). -/
def BeltEdge.loV (e : BeltEdge) : ℚ := e.loOpt.getD 0

structure BeltsProblem where
  nodes : List String
  edges : List BeltEdge
  node_caps : List (String × ℚ)
  sources : List (String × ℚ)
  sink : String
deriving DecidableEq

/-- Label of the artificial source (`self.SUPER_SOURCE`). -/
def SUPER_SRC : String := "__SUPER_SRC__"

/-- Label of the artificial sink (`self.SUPER_SINK`). -/
def SUPER_SNK : String := "__SUPER_SNK__"

/-- `sum(self.source_supply_map.values())`; with distinct source names the
dict's values are exactly the listed supplies. -/
def totalSupply (P : BeltsProblem) : ℚ := qsum (P.sources.map (·.2))

/-- Split test of `_get_internal_node_maps`: the node has a capacity, is not
a source, and is not the sink. -/
def isSplit (P : BeltsProblem) (v : String) : Bool :=
  hasKey P.node_caps v && !hasKey P.sources v && !(v == P.sink)

/-- `internal_node_map[v]`. -/
def internalName (P : BeltsProblem) (v : String) : String :=
  if isSplit P v then v ++ "__in" else v

/-- `external_node_map[v]`. -/
def externalName (P : BeltsProblem) (v : String) : String :=
  if isSplit P v then v ++ "__out" else v

/-- Key under which an edge lands in `mapped_edge_pairs`. -/
def edgeKey (P : BeltsProblem) (e : BeltEdge) : String × String :=
  (externalName P e.src, internalName P e.dst)

/-- The parallel-edge group of a key, in input order (the list
`mapped_edge_pairs[key]`). -/
def groupItems (P : BeltsProblem) (k : String × String) : List BeltEdge :=
  P.edges.filter (fun e => edgeKey P e = k)

/-- Sum of reduced capacities `hi - lo` over a key's group. -/
def totalReduced (P : BeltsProblem) (k : String × String) : ℚ :=
  qsum ((groupItems P k).map (fun e => qsub e.hi e.loV))

/-- Keys of `mapped_edge_pairs` in insertion order. -/
def aggKeys (P : BeltsProblem) : List (String × String) :=
  dedupFirst (P.edges.map (edgeKey P))

/-- `B(v) = Σ lo_in - Σ lo_out` (`node_imbalance`). -/
def node_imbalance (P : BeltsProblem) (v : String) : ℚ :=
  qsum (P.edges.map (fun e =>
    qsub (if e.dst = v then e.loV else 0) (if e.src = v then e.loV else 0)))

/-- `self.source_supply_map.get(node, 0.0)`. -/
def supplyOf (P : BeltsProblem) (v : String) : ℚ := (pyLookup P.sources v).getD 0

/-- `R(v) = B(v) + supply(v) - demand(v)` (`node_requirement`). -/
def requirement (P : BeltsProblem) (v : String) : ℚ :=
  qsub (qadd (node_imbalance P v) (supplyOf P v))
    (if v = P.sink then totalSupply P else 0)

/-- Keys of `node_capacity_map` in iteration order. -/
def capKeyOrder (P : BeltsProblem) : List String := dedupFirst (P.node_caps.map (·.1))

/-- The capacity a node's dict entry carries (`node_capacity_map[v]`). -/
def nodeCapOf (P : BeltsProblem) (v : String) : ℚ := (pyLookup P.node_caps v).getD 0

/-- Arcs `v_in → v_out` added for capacitated split nodes. -/
def splitArcs (P : BeltsProblem) : List (String × String × ℚ) :=
  (capKeyOrder P).filterMap (fun v =>
    if isSplit P v then some (internalName P v, externalName P v, nodeCapOf P v)
    else none)

/-- Aggregated arcs, one per `mapped_edge_pairs` key, with the summed reduced
capacity. -/
def aggArcs (P : BeltsProblem) : List (String × String × ℚ) :=
  (aggKeys P).map (fun k => (k.1, k.2, totalReduced P k))

/-- Arcs attached to the super endpoints from each node's requirement. -/
def superArcs (P : BeltsProblem) : List (String × String × ℚ) :=
  P.nodes.filterMap (fun v =>
    if tolB < requirement P v then
      some (SUPER_SRC, internalName P v, requirement P v)
    else if requirement P v < qneg tolB then
      some (externalName P v, SUPER_SNK, qneg (requirement P v))
    else none)

/-- All `add_edge` calls that build the auxiliary graph, in program order. -/
def capList (P : BeltsProblem) : List (String × String × ℚ) :=
  splitArcs P ++ aggArcs P ++ superArcs P

/-- Capacity of the auxiliary graph's arc `u → v`: the last `add_edge` for
that pair wins (networkx overwrites), absent arcs have capacity 0. -/
def capB (P : BeltsProblem) (u v : String) : ℚ :=
  (((capList P).reverse.find? (fun t => t.1 = u ∧ t.2.1 = v)).map (·.2.2)).getD 0

/-- `total_demand`, accumulated over nodes whose requirement exceeds the
tolerance. -/
def total_demand (P : BeltsProblem) : ℚ :=
  qsum (P.nodes.map (fun v => if tolB < requirement P v then requirement P v else 0))

/-- The auxiliary graph's vertices: both mapped forms of every node plus the
super endpoints (duplicates removed so the list can index sums). -/
def VlistB (P : BeltsProblem) : List String :=
  dedupFirst (P.nodes.map (internalName P) ++ P.nodes.map (externalName P)
    ++ [SUPER_SRC, SUPER_SNK])

/-- Value the kernel's flow dictionary holds for the arc `u → v` (0 when the
arc is absent). -/
def flowFn (fl : List (String × String × ℚ)) (u v : String) : ℚ :=
  ((fl.reverse.find? (fun t => t.1 = u ∧ t.2.1 = v)).map (·.2.2)).getD 0

/-- Net outflow of the super source: the value of the kernel's flow
(`max_flow_value`). -/
def netFlowValue (P : BeltsProblem) (fl : List (String × String × ℚ)) : ℚ :=
  qsub (qsum ((VlistB P).map (fun v => flowFn fl SUPER_SRC v)))
    (qsum ((VlistB P).map (fun v => flowFn fl v SUPER_SRC)))

/-- Residual adjacency of the kernel's flow: spare forward capacity or
positive backward flow. -/
def residAdj (P : BeltsProblem) (fl : List (String × String × ℚ))
    (u v : String) : Bool :=
  decide (flowFn fl u v < capB P u v) || decide (0 < flowFn fl v u)

/-- Vertices reachable from the super source in the residual graph: the
source side of the min-cut partition networkx returns (the two preflow-push
calls are deterministic on the same instance, so they share one flow). -/
def residReach (P : BeltsProblem) (fl : List (String × String × ℚ)) : List String :=
  bfsClosure (residAdj P fl) (VlistB P) [SUPER_SRC]

/-- Positive-capacity adjacency of the auxiliary graph. -/
def capAdj (P : BeltsProblem) (u v : String) : Bool := decide (0 < capB P u v)

/-- Vertices reachable from `s` through positive-capacity auxiliary arcs. -/
def capReachFrom (P : BeltsProblem) (s : String) : List String :=
  bfsClosure (capAdj P) (VlistB P) [s]

/-- Reduced flow apportioned back to one original edge: its group's
aggregated flow times its share of the reduced capacity (0 when the whole
group's reduced capacity is within tolerance). -/
def originalEdgeFlow (P : BeltsProblem) (fl : List (String × String × ℚ))
    (e : BeltEdge) : ℚ :=
  if tolB < totalReduced P (edgeKey P e) then
    qmul (qdiv (qsub e.hi e.loV) (totalReduced P (edgeKey P e)))
      (flowFn fl (edgeKey P e).1 (edgeKey P e).2)
  else 0

/-- The lifted flow of one original edge (`share + lo`). -/
def liftedFlow (P : BeltsProblem) (fl : List (String × String × ℚ))
    (e : BeltEdge) : ℚ :=
  qadd (originalEdgeFlow P fl e) e.loV

structure FlowEntry where
  src : String
  dst : String
  flow : ℚ
deriving DecidableEq

/-- Order of the output `flows` list: by the `(from, to)` pair. -/
def flowEntryLe (a b : FlowEntry) : Bool :=
  if a.src = b.src then strLe a.dst b.dst else strLe a.src b.src

/-- The `flows` list of a feasible run: lifted flows above tolerance, sorted
by `(from, to)`. -/
def finalFlows (P : BeltsProblem) (fl : List (String × String × ℚ)) :
    List FlowEntry :=
  sortBy flowEntryLe (P.edges.filterMap (fun e =>
    if tolB < liftedFlow P fl e then some ⟨e.src, e.dst, liftedFlow P fl e⟩
    else none))

structure TightEdge where
  src : String
  dst : String
  flow_needed : ℚ
deriving DecidableEq

/-- Base names of the residual-reachable vertices with the super endpoints
dropped (`reachable_original_nodes`; a Python set, so only membership
matters). -/
def reachableBases (P : BeltsProblem) (fl : List (String × String × ℚ)) :
    List String :=
  ((residReach P fl).filter (fun v => !(v == SUPER_SRC) && !(v == SUPER_SNK))).map
    baseName

/-- `cut_reachable`: the sorted set of reachable base names. -/
def cutReachable (P : BeltsProblem) (fl : List (String × String × ℚ)) :
    List String :=
  sortStr (dedupFirst (reachableBases P fl))

/-- `demand_balance`: the gap the max flow leaves open. -/
def deficitOf (P : BeltsProblem) (fl : List (String × String × ℚ)) : ℚ :=
  qsub (total_demand P) (netFlowValue P fl)

/-- Saturated split-node arcs on the reachable side (`tight_nodes`; built
over `sorted(nodes)` and sorted again on output). -/
def tightNodes (P : BeltsProblem) (fl : List (String × String × ℚ)) :
    List String :=
  sortStr ((sortStr P.nodes).filter (fun v =>
    (reachableBases P fl).contains v && isSplit P v &&
    decide (qsub (capB P (internalName P v) (externalName P v))
      (flowFn fl (internalName P v) (externalName P v)) ≤ tolB)))

/-- Saturated aggregated arcs crossing the cut, expanded to their original
edges, each charged the whole deficit (`tight_edges`). -/
def tightEdges (P : BeltsProblem) (fl : List (String × String × ℚ)) :
    List TightEdge :=
  ((aggKeys P).filterMap (fun k =>
    if (residReach P fl).contains k.1 && !((residReach P fl).contains k.2) &&
        decide (qsub (capB P k.1 k.2) (flowFn fl k.1 k.2) ≤ tolB) then
      some ((groupItems P k).map (fun e =>
        (⟨e.src, e.dst, deficitOf P fl⟩ : TightEdge)))
    else none)).flatten

inductive BeltsResult where
  | ok (max_flow_per_min : ℚ) (flows : List FlowEntry)
  | infeasible (cut_reachable : List String) (demand_balance : ℚ)
      (tight_nodes : List String) (tight_edges : List TightEdge)
  | error (message : String)
deriving DecidableEq

/-- The `status` field of the emitted JSON. -/
def statusOfB : BeltsResult → String
  | .ok _ _ => "ok"
  | .infeasible _ _ _ _ => "infeasible"
  | .error _ => "error"

/-- `BeltsSolver.solve`, parameterized by the max-flow kernel's returned flow
`fl` (the kernel itself is an external collaborator; its guarantees enter as
hypotheses).  The first offending edge of the `hi < lo` validation aborts
with an error; then the demand-balance check picks the feasible or the
infeasible branch. -/
def beltsSolve (P : BeltsProblem) (fl : List (String × String × ℚ)) : BeltsResult :=
  match P.edges.find? (fun e => decide (qadd e.hi tolB < e.loV)) with
  | some e => .error ("edge " ++ e.src ++ "->" ++ e.dst ++ " has hi < lo")
  | none =>
    if tolB < qabs (qsub (netFlowValue P fl) (total_demand P)) then
      .infeasible (cutReachable P fl) (deficitOf P fl) (tightNodes P fl)
        (tightEdges P fl)
    else
      .ok (totalSupply P) (finalFlows P fl)

/-- The max-flow kernel contract, part 1: the returned flow lives on the
auxiliary graph's vertices, respects the capacities, and conserves flow at
every vertex other than the super endpoints. -/
def FeasibleFlow (P : BeltsProblem) (fl : List (String × String × ℚ)) : Prop :=
  (∀ t ∈ fl, t.1 ∈ VlistB P ∧ t.2.1 ∈ VlistB P) ∧
  (∀ u ∈ VlistB P, ∀ v ∈ VlistB P,
    0 ≤ flowFn fl u v ∧ flowFn fl u v ≤ capB P u v) ∧
  (∀ v ∈ VlistB P, v ≠ SUPER_SRC → v ≠ SUPER_SNK →
    qsum ((VlistB P).map (fun u => flowFn fl u v)) =
      qsum ((VlistB P).map (fun u => flowFn fl v u)))

/-- The max-flow kernel contract, part 2: no augmenting path remains, i.e.
the super sink is not residual-reachable (this certifies maximality and is
what makes the returned cut partition a minimum cut). -/
def MaxFlowReturned (P : BeltsProblem) (fl : List (String × String × ℚ)) : Prop :=
  FeasibleFlow P fl ∧ SUPER_SNK ∉ residReach P fl

/-- The data-model invariants of the spec (section 3): distinct node names;
edge endpoints, capacity names and source names drawn from the node list;
source names distinct with non-negative supplies; the sink a listed node and
not a source. -/
def WellFormedB (P : BeltsProblem) : Prop :=
  P.nodes.Nodup ∧
  (∀ e ∈ P.edges, e.src ∈ P.nodes ∧ e.dst ∈ P.nodes) ∧
  (∀ p ∈ P.node_caps, p.1 ∈ P.nodes) ∧
  (∀ p ∈ P.sources, p.1 ∈ P.nodes ∧ 0 ≤ p.2) ∧
  (P.sources.map (·.1)).Nodup ∧
  hasKey P.sources P.sink = false ∧
  P.sink ∈ P.nodes

/-- Every node name is unambiguous under the `__in` / `__out` encoding. -/
def SepOKAll (P : BeltsProblem) : Prop := ∀ v ∈ P.nodes, sepOK v = true

/-! ## Factory core — data model (factory/main.py)

Fields `ins`/`outs` stand for the JSON keys `in`/`out` (`in` is reserved in
Lean).  Optional module modifiers keep their `.get(..., 0)` defaults through
`Option`.
-/

/-- Numerical tolerance of the factory core (`self.numerical_tolerance = 1e-6`). -/
def tolF : ℚ := mkRat 1 1000000

structure Recipe where
  machine : String
  time_s : ℚ
  ins : List (String × ℚ)
  outs : List (String × ℚ)
deriving DecidableEq

structure ModuleEntry where
  speed : Option ℚ
  prod : Option ℚ
deriving DecidableEq

structure FactoryProblem where
  machines : List (String × ℚ)
  recipes : List (String × Recipe)
  modules : List (String × ModuleEntry)
  max_machines : List (String × ℚ)
  raw_supply_per_min : List (String × ℚ)
  target_item : String
  target_rate : ℚ
deriving DecidableEq

/-- `sorted(list(self.data['recipes'].keys()))`. -/
def recipeList (P : FactoryProblem) : List String :=
  sortStr (dedupFirst (P.recipes.map (·.1)))

/-- `sorted(list(self.data['machines'].keys()))`. -/
def machineTypeList (P : FactoryProblem) : List String :=
  sortStr (dedupFirst (P.machines.map (·.1)))

/-- The recipe a name denotes (`self.data['recipes'][name]`; only evaluated
at listed names, where the lookup succeeds). -/
def recipeOf (P : FactoryProblem) (r : String) : Recipe :=
  (pyLookup P.recipes r).getD ⟨"", 0, [], []⟩

/-- Items of the recipes dict: keys in first-occurrence order, each with the
value that survives (the last). -/
def recipeItems (P : FactoryProblem) : List (String × Recipe) :=
  (dedupFirst (P.recipes.map (·.1))).map (fun k => (k, recipeOf P k))

/-- `recipe['in'].get(m, 0)`. -/
def inQty (rec : Recipe) (m : String) : ℚ := (pyLookup rec.ins m).getD 0

/-- `recipe['out'].get(m, 0)`. -/
def outQty (rec : Recipe) (m : String) : ℚ := (pyLookup rec.outs m).getD 0

/-- `all_input_materials` of `_identify_and_categorize_materials`. -/
def allInputMaterials (P : FactoryProblem) : List String :=
  dedupFirst ((recipeItems P).flatMap (fun p => p.2.ins.map (·.1)))

/-- `all_output_materials`. -/
def allOutputMaterials (P : FactoryProblem) : List String :=
  dedupFirst ((recipeItems P).flatMap (fun p => p.2.outs.map (·.1)))

/-- `sorted(list(all_inputs - all_outputs))`: materials that only ever enter
recipes. -/
def rawMaterials (P : FactoryProblem) : List String :=
  sortStr ((allInputMaterials P).filter (fun m => !((allOutputMaterials P).contains m)))

/-- `sorted(list(all_inputs ∩ all_outputs))`. -/
def intermediateMaterials (P : FactoryProblem) : List String :=
  sortStr ((allInputMaterials P).filter (fun m => (allOutputMaterials P).contains m))

/-- `sorted(list(all_inputs ∪ all_outputs))`. -/
def allMaterials (P : FactoryProblem) : List String :=
  sortStr (dedupFirst (allInputMaterials P ++ allOutputMaterials P))

/-- `self.data.get('modules', {}).get(machine_type, {}).get('speed', 0)`. -/
def speedMod (P : FactoryProblem) (mt : String) : ℚ :=
  (((pyLookup P.modules mt).bind (·.speed)).getD 0)

/-- `self.data.get('modules', {}).get(machine_type, {}).get('prod', 0)`. -/
def prodMod (P : FactoryProblem) (mt : String) : ℚ :=
  (((pyLookup P.modules mt).bind (·.prod)).getD 0)

/-- `effective_crafts[r] = base_speed * (1 + speed_mod) * 60 / time_s`
(ℚ makes `/ 0` total where Python raises; `mkSolver` rejects exactly the
raising problems first). -/
def effOfQ (P : FactoryProblem) (r : String) : ℚ :=
  qdiv (qmul (qmul ((pyLookup P.machines (recipeOf P r).machine).getD 0)
    (qadd 1 (speedMod P (recipeOf P r).machine))) 60) (recipeOf P r).time_s

/-- `productivity_mult[r] = 1 + prod_mod(machine of r)`. -/
def pmOf (P : FactoryProblem) (r : String) : ℚ :=
  qadd 1 (prodMod P (recipeOf P r).machine)

/-- A constructed `FactorySolver`: the problem with its per-recipe effective
crafts and productivity multipliers. -/
structure FactorySolver where
  P : FactoryProblem
  eff : String → ℚ
  pm : String → ℚ

/-- The exceptions `_calculate_effective_crafts` can raise, in loop order:
an unknown machine (KeyError on `self.data['machines'][machine_type]`), then
a zero `time_s` (ZeroDivisionError in the crafts formula). -/
def validateRecipes (P : FactoryProblem) : List (String × Recipe) → Except String Unit
  | [] => Except.ok ()
  | (_, rec) :: rest =>
    match pyLookup P.machines rec.machine with
    | none => Except.error ("KeyError: " ++ rec.machine)
    | some _ =>
      if rec.time_s = 0 then Except.error "float division by zero"
      else validateRecipes P rest

/-- `FactorySolver.__init__`: builds the solver, or raises (as an `error`
value) from inside `_calculate_effective_crafts`. -/
def mkSolver (P : FactoryProblem) : Except String FactorySolver :=
  match validateRecipes P (recipeItems P) with
  | Except.error e => Except.error e
  | Except.ok _ => Except.ok ⟨P, effOfQ P, pmOf P⟩

/-- A constraint row's diagnostic record (`constraint_info` entries,
`{"type": ..., "name": ...}`). -/
structure Cinfo where
  ctype : String
  cname : String
deriving DecidableEq

/-- One inequality row: per-recipe coefficients, an upper bound (`none`
models `float('inf')`, the `.get` default), and its diagnostic record. -/
structure IneqRow where
  coeffs : List ℚ
  bound : Option ℚ
  info : Cinfo
deriving DecidableEq

/-- Dot product of a coefficient row with the activity vector
(`sum(row[i] * x[i])`). -/
def dotQ (coeffs x : List ℚ) : ℚ := qsum (List.zipWith qmul coeffs x)

/-- `net_out(r, m) = out(r, m) * prod_mult(r) - in(r, m)`, one coefficient of
a balance row. -/
def netOutCoeff (S : FactorySolver) (m r : String) : ℚ :=
  qsub (qmul (outQty (recipeOf S.P r) m) (S.pm r)) (inQty (recipeOf S.P r) m)

/-- A machine-capacity row (`_build_inequality_constraints`, first block). -/
def machineRowOf (S : FactorySolver) (M : String) : IneqRow :=
  ⟨(recipeList S.P).map (fun r =>
      if (recipeOf S.P r).machine = M then qdiv 1 (S.eff r) else 0),
    pyLookup S.P.max_machines M,
    ⟨"machine_cap", M⟩⟩

/-- A raw-material supply row, net consumption against the supply cap
(second block; the code tags it `"raw_net_nonpos"`). -/
def supplyRowOf (S : FactorySolver) (m : String) : IneqRow :=
  ⟨(recipeList S.P).map (fun r =>
      qsub (inQty (recipeOf S.P r) m) (qmul (outQty (recipeOf S.P r) m) (S.pm r))),
    pyLookup S.P.raw_supply_per_min m,
    ⟨"raw_net_nonpos", m⟩⟩

/-- A raw-material non-production row, net production at most zero
(third block; the code tags it `"raw_cap"`). -/
def nonprodRowOf (S : FactorySolver) (m : String) : IneqRow :=
  ⟨(recipeList S.P).map (fun r =>
      qsub (qmul (outQty (recipeOf S.P r) m) (S.pm r)) (inQty (recipeOf S.P r) m)),
    some 0,
    ⟨"raw_cap", m⟩⟩

/-- The stacked inequality system with its `constraint_info`, in row order. -/
def ineqRows (S : FactorySolver) : List IneqRow :=
  (machineTypeList S.P).map (machineRowOf S) ++
  (rawMaterials S.P).map (supplyRowOf S) ++
  (rawMaterials S.P).map (nonprodRowOf S)

/-- A row's slack `bound - Σ coef·x` (`none` for an infinite bound, whose
float slack is `inf` and never tests as binding). -/
def slackOf (row : IneqRow) (x : List ℚ) : Option ℚ :=
  row.bound.map (fun b => qsub b (dotQ row.coeffs x))

/-- The binding test `slack_val <= max(self.numerical_tolerance, 1e-6)`. -/
def bindingB (row : IneqRow) (x : List ℚ) : Bool :=
  match slackOf row x with
  | some s => decide (s ≤ qmax tolF tolF)
  | none => false

/-- The hint string `_get_bottleneck_hints` derives from a row's record. -/
def hintOf (info : Cinfo) : String :=
  if info.ctype = "machine_cap" then info.cname ++ " cap"
  else if info.ctype = "raw_cap" then info.cname ++ " supply"
  else if info.ctype = "raw_net_nonpos" then info.cname ++ " production restriction"
  else info.cname

/-- `_get_bottleneck_hints` at the solution `x`: hints of the binding rows in
row order, de-duplicated keeping first occurrences. -/
def bottleneckHints (S : FactorySolver) (x : List ℚ) : List String :=
  dedupFirst (((ineqRows S).filter (fun row => bindingB row x)).map
    (fun row => hintOf row.info))

/-- `materials_to_balance` of `_build_equality_constraints`:
`sorted(list(set(intermediates + [target])))`. -/
def materialsToBalance (P : FactoryProblem) : List String :=
  sortStr (dedupFirst (intermediateMaterials P ++ [P.target_item]))

/-- Balance materials of the fallback LP `_maximize_target`: every material
that is neither raw nor the target, in `all_materials` order. -/
def fallbackEqMaterials (P : FactoryProblem) : List String :=
  (allMaterials P).filter (fun m =>
    !((rawMaterials P).contains m) && !(m == P.target_item))

/-- Objective coefficient of the fallback LP: the negated net target
production of one recipe. -/
def fallbackObjCoeff (S : FactorySolver) (r : String) : ℚ :=
  qneg (netOutCoeff S S.P.target_item r)

/-- Net production of material `m` at activities `x` (a balance row's value). -/
def netProdOf (S : FactorySolver) (m : String) (x : List ℚ) : ℚ :=
  dotQ ((recipeList S.P).map (netOutCoeff S m)) x

/-- `achieved_target` recomputed from the fallback solution. -/
def achievedTarget (S : FactorySolver) (x : List ℚ) : ℚ :=
  netProdOf S S.P.target_item x

/-- `per_recipe_crafts_per_min` of `_format_success_output`. -/
def perRecipeOut (S : FactorySolver) (x : List ℚ) : List (String × ℚ) :=
  List.zip (recipeList S.P) x

/-- `per_machine_counts`: for each machine type the summed `x_r / eff(r)` of
its recipes (the loop accumulates exactly these terms per type). -/
def perMachineOut (S : FactorySolver) (x : List ℚ) : List (String × ℚ) :=
  (machineTypeList S.P).map (fun M =>
    (M, qsum (List.zipWith (fun r xr =>
      if (recipeOf S.P r).machine = M then qdiv xr (S.eff r) else 0)
      (recipeList S.P) x)))

/-- The reported net raw consumption of one raw material
(`(in - out*prod_mult) * x` summed over recipes). -/
def netConsOf (S : FactorySolver) (m : String) (x : List ℚ) : ℚ :=
  qsum (List.zipWith (fun r xr =>
    qmul (qsub (inQty (recipeOf S.P r) m) (qmul (outQty (recipeOf S.P r) m) (S.pm r)))
      xr) (recipeList S.P) x)

/-- `raw_consumption_per_min`. -/
def rawConsOut (S : FactorySolver) (x : List ℚ) : List (String × ℚ) :=
  (rawMaterials S.P).map (fun m => (m, netConsOf S m x))

inductive FactoryResult where
  | ok (per_recipe : List (String × ℚ)) (per_machine : List (String × ℚ))
      (raw_consumption : List (String × ℚ))
  | infeasible (max_feasible_target_per_min : ℚ) (bottleneck_hint : List String)
  | error (message : String)
deriving DecidableEq

/-- The `status` field of the emitted JSON. -/
def statusOfF : FactoryResult → String
  | .ok _ _ _ => "ok"
  | .infeasible _ _ => "infeasible"
  | .error _ => "error"

/-- `FactorySolver.solve`, parameterized by the LP kernel's outcomes:
`primal` is the primary LP's solution when it succeeds, `fb` the fallback
LP's solution when it succeeds. -/
def factorySolve (S : FactorySolver) (primal fb : Option (List ℚ)) : FactoryResult :=
  match primal with
  | some x => .ok (perRecipeOut S x) (perMachineOut S x) (rawConsOut S x)
  | none =>
    match fb with
    | none => .infeasible 0 []
    | some y => .infeasible (achievedTarget S y) (bottleneckHints S y)

/-- The factory command's `main`: any exception from construction or solve
becomes a `status: error` object. -/
def factoryMain (P : FactoryProblem) (primal fb : Option (List ℚ)) : FactoryResult :=
  match mkSolver P with
  | Except.error e => .error e
  | Except.ok S => factorySolve S primal fb

/-- One row's satisfaction: the dot product stays within a finite bound
(an infinite bound constrains nothing). -/
def rowSatB (row : IneqRow) (x : List ℚ) : Bool :=
  match row.bound with
  | some b => decide (dotQ row.coeffs x ≤ b)
  | none => true

/-- LP kernel contract: a returned point satisfies every inequality row that
carries a finite bound. -/
def SatisfiesIneq (S : FactorySolver) (x : List ℚ) : Prop :=
  ∀ row ∈ ineqRows S, rowSatB row x = true

theorem rowSat_le {row : IneqRow} {x : List ℚ} {b : ℚ}
    (hs : rowSatB row x = true) (hb : row.bound = some b) :
    dotQ row.coeffs x ≤ b := by
  rw [rowSatB, hb] at hs
  exact of_decide_eq_true hs

/-- LP kernel contract: returned activities are non-negative. -/
def NonnegVec (x : List ℚ) : Prop := ∀ xi ∈ x, 0 ≤ xi

/-- A point satisfying the fallback LP's equality system: zero net
production of every non-raw, non-target material. -/
def SatisfiesFallbackEq (S : FactorySolver) (x : List ℚ) : Prop :=
  ∀ m ∈ fallbackEqMaterials S.P, netProdOf S m x = 0

/-- Feasibility for the fallback LP. -/
def FallbackFeasible (S : FactorySolver) (x : List ℚ) : Prop :=
  x.length = (recipeList S.P).length ∧ NonnegVec x ∧ SatisfiesIneq S x ∧
  SatisfiesFallbackEq S x

/-- The LP kernel's optimality contract for the fallback LP: `x` is feasible
and maximizes net target production. -/
def FallbackOptimal (S : FactorySolver) (x : List ℚ) : Prop :=
  FallbackFeasible S x ∧ ∀ y, FallbackFeasible S y →
    achievedTarget S y ≤ achievedTarget S x

instance (x : List ℚ) : Decidable (NonnegVec x) := by
  unfold NonnegVec; infer_instance

instance (S : FactorySolver) (x : List ℚ) : Decidable (SatisfiesIneq S x) := by
  unfold SatisfiesIneq; infer_instance

instance (S : FactorySolver) (x : List ℚ) : Decidable (SatisfiesFallbackEq S x) := by
  unfold SatisfiesFallbackEq; infer_instance

instance (S : FactorySolver) (x : List ℚ) : Decidable (FallbackFeasible S x) := by
  unfold FallbackFeasible; infer_instance

instance (P : BeltsProblem) (fl : List (String × String × ℚ)) :
    Decidable (FeasibleFlow P fl) := by
  unfold FeasibleFlow; infer_instance

instance (P : BeltsProblem) (fl : List (String × String × ℚ)) :
    Decidable (MaxFlowReturned P fl) := by
  unfold MaxFlowReturned; infer_instance

instance (P : BeltsProblem) : Decidable (WellFormedB P) := by
  unfold WellFormedB; infer_instance

instance (P : BeltsProblem) : Decidable (SepOKAll P) := by
  unfold SepOKAll; infer_instance

/-! ## Claims -/

theorem validateRecipes_no_ok {P : FactoryProblem} :
    ∀ {l : List (String × Recipe)}, (∃ p ∈ l, p.2.time_s = 0) →
    ∀ u, validateRecipes P l ≠ Except.ok u := by
  intro l
  induction l with
  | nil => rintro ⟨p, hp, _⟩ u; exact absurd hp (List.not_mem_nil p)
  | cons hd rest ih =>
    rintro ⟨p, hp, hzero⟩ u
    rw [validateRecipes]
    rcases hlook : pyLookup P.machines hd.2.machine with _ | base
    · exact fun hc => Except.noConfusion hc
    · by_cases hz : hd.2.time_s = 0
      · rw [if_pos hz]
        exact fun hc => Except.noConfusion hc
      · rw [if_neg hz]
        rcases List.mem_cons.mp hp with hph | hpt
        · exact absurd (hph ▸ hzero) hz
        · exact ih ⟨p, hpt, hzero⟩ u

/-- C10: a factory problem whose recipes dict contains a recipe with
`time_s = 0` makes `main` emit a `status: "error"` object: the division by
zero inside `_calculate_effective_crafts` is raised during construction and
caught at the top-level boundary, so neither an `ok` nor an `infeasible`
object is produced and the process does not crash.  (`recipeItems` is the
recipes dict's item list; a JSON object holds one recipe per name.) -/
theorem C10_time_zero_errors (P : FactoryProblem) (primal fb : Option (List ℚ))
    (h : ∃ p ∈ recipeItems P, p.2.time_s = 0) :
    statusOfF (factoryMain P primal fb) = "error" := by
  rw [factoryMain, mkSolver]
  rcases hval : validateRecipes P (recipeItems P) with e | u
  · rfl
  · exact absurd hval (validateRecipes_no_ok h u)

/-- The C10 instance: one assembler recipe whose `time_s` is 0. -/
def exFP10 : FactoryProblem :=
  ⟨[("assembler", 60)],
   [("iron_gear", ⟨"assembler", 0, [("iron_plate", 2)], [("iron_gear", 1)]⟩)],
   [], [("assembler", 10)], [("iron_plate", 200)], "iron_gear", 10⟩

theorem C10_witness :
    (∃ p ∈ recipeItems exFP10, p.2.time_s = 0) ∧
    statusOfF (factoryMain exFP10 none none) = "error" :=
  ⟨by decide, C10_time_zero_errors exFP10 none none (by decide)⟩

/-- The literal statement of claim C7: any edge with `hi < lo` (however
slightly) makes `solve` return an error. -/
def C7Statement : Prop :=
  ∀ (P : BeltsProblem) (fl : List (String × String × ℚ)),
    (∃ e ∈ P.edges, e.hi < e.loV) → statusOfB (beltsSolve P fl) = "error"

/-- A problem with a parallel pair `s → k`: one arc has
`hi = 1 - 5e-10 < lo = 1` (within the validation's 1e-9 slack), the other
`[0, 10]`; supply 5 routes fine. -/
def exBP7 : BeltsProblem :=
  ⟨["s", "k"],
   [⟨"s", "k", some 1, qsub 1 (mkRat 1 2000000000)⟩, ⟨"s", "k", none, 10⟩],
   [], [("s", 5)], "k"⟩

/-- A max flow of the auxiliary network of `exBP7`. -/
def exFl7 : List (String × String × ℚ) :=
  [(SUPER_SRC, "s", 4), ("s", "k", 4), ("k", SUPER_SNK, 4)]

/-- C7 counterexample: `exBP7` has an edge with `hi < lo`, yet `solve`
returns `ok` — the validation only rejects `hi + 1e-9 < lo`. -/
theorem C7_counterexample : ¬ C7Statement := by
  intro h
  have hedge : ∃ e ∈ exBP7.edges, e.hi < e.loV :=
    ⟨⟨"s", "k", some 1, qsub 1 (mkRat 1 2000000000)⟩, by decide, by decide⟩
  exact absurd (h exBP7 exFl7 hedge) (by decide)

/-- C7 (amended): when the validation finds an edge with `hi + 1e-9 < lo`
(the first such edge in input order), `solve` returns `status: "error"` with
a message naming that arc's endpoints, and no flow computation is reported. -/
theorem C7_violating_edge_errors (P : BeltsProblem)
    (fl : List (String × String × ℚ)) (e : BeltEdge)
    (hfind : P.edges.find? (fun e => decide (qadd e.hi tolB < e.loV)) = some e) :
    beltsSolve P fl = .error ("edge " ++ e.src ++ "->" ++ e.dst ++ " has hi < lo") := by
  rw [beltsSolve, hfind]

/-- A problem whose single edge has `hi = 0 < 2 = lo` beyond tolerance. -/
def exBP7w : BeltsProblem := ⟨["a", "b"], [⟨"a", "b", some 2, 0⟩], [], [], "b"⟩

theorem C7_witness :
    exBP7w.edges.find? (fun e => decide (qadd e.hi tolB < e.loV)) =
      some ⟨"a", "b", some 2, 0⟩ ∧
    beltsSolve exBP7w [] = .error "edge a->b has hi < lo" :=
  ⟨by decide, C7_violating_edge_errors exBP7w [] ⟨"a", "b", some 2, 0⟩ (by decide)⟩

theorem beltsSolve_ok_inv {P : BeltsProblem} {fl : List (String × String × ℚ)}
    {mf : ℚ} {flows : List FlowEntry} (h : beltsSolve P fl = .ok mf flows) :
    mf = totalSupply P ∧ flows = finalFlows P fl := by
  rw [beltsSolve] at h
  split at h
  · exact absurd h (by simp)
  · split at h
    · exact absurd h (by simp)
    · rw [BeltsResult.ok.injEq] at h
      exact ⟨h.1.symm, h.2.symm⟩

/-- C8: on a feasible run, an edge with `lo = hi` carries exactly that
common value — its reduced capacity `hi - lo` is zero, so the apportioned
share is zero in either branch and the lift restores `lo` — and the edge
appears in the returned `flows` list whenever `lo` exceeds the 1e-9
tolerance. -/
theorem C8_fixed_edges (P : BeltsProblem) (fl : List (String × String × ℚ))
    (mf : ℚ) (flows : List FlowEntry) (hok : beltsSolve P fl = .ok mf flows)
    (e : BeltEdge) (he : e ∈ P.edges) (hfix : e.loV = e.hi) :
    liftedFlow P fl e = e.loV ∧
    (tolB < e.loV → (⟨e.src, e.dst, e.loV⟩ : FlowEntry) ∈ flows) := by
  have hlift : liftedFlow P fl e = e.loV := by
    rw [liftedFlow, originalEdgeFlow]
    have hz : qsub e.hi e.loV = 0 := by rw [qsub_eq, hfix, sub_self]
    split
    · rw [hz, qdiv_eq, qmul_eq, zero_div, zero_mul, qadd_eq, zero_add]
    · rw [qadd_eq, zero_add]
  refine ⟨hlift, fun htol => ?_⟩
  obtain ⟨_, hfl⟩ := beltsSolve_ok_inv hok
  rw [hfl, finalFlows, mem_sortBy]
  refine List.mem_filterMap.mpr ⟨e, he, ?_⟩
  rw [hlift, if_pos htol]

/-- The spec's lower-bound scenario: `s → a` forced to 10 by `lo = hi = 10`,
`a → sink` free up to 100, supply 10. -/
def exBP8 : BeltsProblem :=
  ⟨["s", "a", "k"], [⟨"s", "a", some 10, 10⟩, ⟨"a", "k", none, 100⟩],
   [], [("s", 10)], "k"⟩

/-- A max flow of the auxiliary network of `exBP8`. -/
def exFl8 : List (String × String × ℚ) :=
  [(SUPER_SRC, "a", 10), ("a", "k", 10), ("k", SUPER_SNK, 10)]

theorem C8_witness :
    beltsSolve exBP8 exFl8 = .ok (totalSupply exBP8) (finalFlows exBP8 exFl8) ∧
    (⟨"s", "a", (10 : ℚ)⟩ : FlowEntry) ∈ finalFlows exBP8 exFl8 :=
  ⟨by decide,
   (C8_fixed_edges exBP8 exFl8 (totalSupply exBP8) (finalFlows exBP8 exFl8)
     (by decide) ⟨"s", "a", some 10, 10⟩ (by decide) (by decide)).2 (by decide)⟩

theorem dot_single (a b : ℚ) : dotQ [a] [b] = a * b := by
  show qsum [qmul a b] = a * b
  rw [qsum, List.foldr_cons, List.foldr_nil, qadd_eq, qmul_eq, add_zero]

/-- The repository test's machine-capped infeasible scenario: one assembler
(7200 effective crafts/min), recipe `iron_gear` eating 2 `iron_plate`,
machine cap 1, raw supply 5000, target 5000. -/
def exFP1 : FactoryProblem :=
  ⟨[("assembler", 60)],
   [("iron_gear", ⟨"assembler", mkRat 1 2, [("iron_plate", 2)], [("iron_gear", 1)]⟩)],
   [], [("assembler", 1)], [("iron_plate", 5000)], "iron_gear", 5000⟩

/-- The solver `FactorySolver.__init__` builds on `exFP1`. -/
def exFS1 : FactorySolver := ⟨exFP1, effOfQ exFP1, pmOf exFP1⟩

theorem mkSolver_exFP1 : mkSolver exFP1 = Except.ok exFS1 := rfl

/-- The fallback optimum of `exFP1` is 2500 crafts/min, pinned by the raw
supply row `2x ≤ 5000`. -/
theorem exFallbackOpt : FallbackOptimal exFS1 [2500] := by
  refine ⟨⟨by decide, by decide, by decide, by decide⟩, ?_⟩
  rintro y ⟨hlen, hnn, hineq, heq⟩
  rw [show (recipeList exFS1.P).length = 1 from by decide] at hlen
  cases y with
  | nil => simp at hlen
  | cons t ys =>
    cases ys with
    | cons t2 ys2 => simp at hlen
    | nil =>
      have hmem : supplyRowOf exFS1 "iron_plate" ∈ ineqRows exFS1 := by decide
      have hsat := hineq _ hmem
      have hb : (supplyRowOf exFS1 "iron_plate").bound = some 5000 := by decide
      have hle := rowSat_le hsat hb
      rw [show (supplyRowOf exFS1 "iron_plate").coeffs = [2] from by decide,
        dot_single] at hle
      show achievedTarget exFS1 [t] ≤ achievedTarget exFS1 [2500]
      rw [achievedTarget, netProdOf,
        show (recipeList exFS1.P).map (netOutCoeff exFS1 exFS1.P.target_item) = [1]
          from by decide,
        dot_single, show achievedTarget exFS1 [2500] = 2500 from by decide]
      linarith

/-- The literal statement of claim C1: at the fallback optimum, a binding
machine-cap row is reported as `"M cap"`, a binding raw-supply row (net
consumption against the cap) as `"m supply"`, and a binding raw
non-production row (net production at most 0) as
`"m production restriction"`. -/
def C1Statement : Prop :=
  ∀ (S : FactorySolver) (x : List ℚ), FallbackOptimal S x →
    (∀ M ∈ machineTypeList S.P, bindingB (machineRowOf S M) x = true →
      (M ++ " cap") ∈ bottleneckHints S x) ∧
    (∀ m ∈ rawMaterials S.P, bindingB (supplyRowOf S m) x = true →
      (m ++ " supply") ∈ bottleneckHints S x) ∧
    (∀ m ∈ rawMaterials S.P, bindingB (nonprodRowOf S m) x = true →
      (m ++ " production restriction") ∈ bottleneckHints S x)

/-- C1 counterexample: on `exFP1`'s fallback optimum the raw-supply row for
`iron_plate` is binding, yet the emitted hints are
`["iron_plate production restriction"]` — the builder tags the supply rows
`"raw_net_nonpos"` and the non-production rows `"raw_cap"`, so
`_get_bottleneck_hints` maps the two raw row kinds to each other's label. -/
theorem C1_counterexample : ¬ C1Statement := by
  intro h
  have h2 := (h exFS1 [2500] exFallbackOpt).2.1 "iron_plate" (by decide) (by decide)
  exact absurd h2 (by decide)

/-- C1 (amended): at the fallback optimum every binding row contributes the
hint the code derives from its `constraint_info` record — `"M cap"` for a
machine row, `"m production restriction"` for a raw-supply row (tagged
`raw_net_nonpos`), `"m supply"` for a raw non-production row (tagged
`raw_cap`) — and the de-duplication keeps membership. -/
theorem C1_binding_rows_hinted (S : FactorySolver) (x : List ℚ)
    (_hopt : FallbackOptimal S x) :
    ∀ row ∈ ineqRows S, bindingB row x = true →
      hintOf row.info ∈ bottleneckHints S x := by
  intro row hrow hbind
  rw [bottleneckHints, mem_dedupFirst]
  exact List.mem_map.mpr ⟨row, List.mem_filter.mpr ⟨hrow, hbind⟩, rfl⟩

theorem C1_witness :
    bindingB (supplyRowOf exFS1 "iron_plate") [2500] = true ∧
    hintOf (supplyRowOf exFS1 "iron_plate").info ∈ bottleneckHints exFS1 [2500] :=
  ⟨by decide, C1_binding_rows_hinted exFS1 [2500] exFallbackOpt
    (supplyRowOf exFS1 "iron_plate") (by decide) (by decide)⟩

theorem contains_false_iff {α : Type} [DecidableEq α] {l : List α} {a : α} :
    (l.contains a = false) ↔ a ∉ l := by
  simp only [List.contains]
  constructor
  · intro h hmem
    rw [List.elem_eq_true_of_mem hmem] at h
    exact Bool.noConfusion h
  · intro h
    rw [Bool.eq_false_iff]
    intro hc
    exact h (List.mem_of_elem_eq_true hc)

theorem dotQ_nil_right (l : List ℚ) : dotQ l [] = 0 := by
  rw [dotQ, List.zipWith_nil_right]; rfl

theorem dotQ_cons (a b : ℚ) (as bs : List ℚ) :
    dotQ (a :: as) (b :: bs) = a * b + dotQ as bs := by
  rw [dotQ, List.zipWith_cons_cons, qsum, List.foldr_cons, qadd_eq, qmul_eq]
  rfl

theorem dotQ_map_neg (f : String → ℚ) :
    ∀ (rl : List String) (x : List ℚ),
      dotQ (rl.map (fun r => qneg (f r))) x = qneg (dotQ (rl.map f) x)
  | [], x => by
    rw [List.map_nil, List.map_nil, qneg_eq, dotQ, List.zipWith_nil_left]
    show (0 : ℚ) = -0
    rw [neg_zero]
  | r :: rs, [] => by
    rw [dotQ_nil_right, dotQ_nil_right, qneg_eq, neg_zero]
  | r :: rs, b :: bs => by
    rw [List.map_cons, List.map_cons, dotQ_cons, dotQ_cons, dotQ_map_neg f rs bs,
      qneg_eq, qneg_eq, qneg_eq]
    ring

theorem mem_fallbackEqMaterials {P : FactoryProblem} {m : String} :
    m ∈ fallbackEqMaterials P ↔
      (m ∈ allMaterials P ∧ m ∉ rawMaterials P ∧ m ≠ P.target_item) := by
  rw [fallbackEqMaterials, List.mem_filter, Bool.and_eq_true, Bool.not_eq_true',
    Bool.not_eq_true', beq_eq_false_iff_ne, contains_false_iff]

/-- The literal statement of claim C3: the fallback LP keeps exactly the
primary LP's other constraints — in particular its equality rows are the
intermediate-material balances — and reports the achieved net target
production of the fallback solution. -/
def C3Statement : Prop :=
  ∀ S : FactorySolver,
    (∀ m, m ∈ fallbackEqMaterials S.P ↔
      (m ∈ intermediateMaterials S.P ∧ m ≠ S.P.target_item)) ∧
    (∀ y, factorySolve S none (some y) =
      .infeasible (achievedTarget S y) (bottleneckHints S y))

/-- A problem with an output-only byproduct: smelting ore yields plate and
slag, gears consume plate; the target is gears. -/
def exFP3 : FactoryProblem :=
  ⟨[("furnace", 60), ("assembler", 60)],
   [("smelt", ⟨"furnace", 1, [("ore", 1)], [("plate", 1), ("slag", 1)]⟩),
    ("gearmk", ⟨"assembler", 1, [("plate", 1)], [("gear", 1)]⟩)],
   [], [], [("ore", 100)], "gear", 10⟩

/-- The solver built on `exFP3`. -/
def exFS3 : FactorySolver := ⟨exFP3, effOfQ exFP3, pmOf exFP3⟩

theorem mkSolver_exFP3 : mkSolver exFP3 = Except.ok exFS3 := rfl

/-- C3 counterexample: in `exFP3` the byproduct `slag` is neither raw nor
the target, so the fallback LP's equality system balances it — but `slag`
is not an intermediate (it never appears as an input), so the fallback's
constraints are not exactly the primary LP's minus the target balance. -/
theorem C3_counterexample : ¬ C3Statement := by
  intro h
  have h1 := ((h exFS3).1 "slag").mp (by decide)
  exact absurd h1 (by decide)

/-- C3 (amended): the fallback LP keeps the same inequality system and
drops the target balance, but its equality rows cover every material that
is neither raw nor the target — output-only byproducts included, beyond
just the intermediates; its objective is the negated net target production,
and the reported `max_feasible_target_per_min` is the net target production
achieved by the fallback solution. -/
theorem C3_fallback_system (S : FactorySolver) :
    (∀ m, m ∈ fallbackEqMaterials S.P ↔
      (m ∈ allMaterials S.P ∧ m ∉ rawMaterials S.P ∧ m ≠ S.P.target_item)) ∧
    (∀ x, SatisfiesFallbackEq S x ↔
      (∀ m ∈ allMaterials S.P, m ∉ rawMaterials S.P → m ≠ S.P.target_item →
        netProdOf S m x = 0)) ∧
    (∀ x, achievedTarget S x =
      qneg (dotQ ((recipeList S.P).map (fallbackObjCoeff S)) x)) ∧
    (∀ y, factorySolve S none (some y) =
      .infeasible (achievedTarget S y) (bottleneckHints S y)) := by
  refine ⟨fun m => mem_fallbackEqMaterials, ?_, ?_, fun y => rfl⟩
  · intro x
    rw [SatisfiesFallbackEq]
    constructor
    · intro h m hall hraw htgt
      exact h m (mem_fallbackEqMaterials.mpr ⟨hall, hraw, htgt⟩)
    · intro h m hm
      obtain ⟨hall, hraw, htgt⟩ := mem_fallbackEqMaterials.mp hm
      exact h m hall hraw htgt
  · intro x
    show netProdOf S S.P.target_item x =
      qneg (dotQ ((recipeList S.P).map
        (fun r => qneg (netOutCoeff S S.P.target_item r))) x)
    rw [dotQ_map_neg, qneg_eq, qneg_eq, neg_neg, netProdOf]

/-- C9: a material appearing only as a recipe output and distinct from the
target is balanced by no primary-LP equality row (it is neither an
intermediate nor the target), yet the fallback LP carries a balance row for
it — its equality rows cover every non-raw, non-target material — which
pins its net production to exactly zero at any fallback-feasible point. -/
theorem C9_byproduct_rows (S : FactorySolver) (m : String)
    (hout : m ∈ allOutputMaterials S.P) (hin : m ∉ allInputMaterials S.P)
    (htgt : m ≠ S.P.target_item) :
    m ∉ materialsToBalance S.P ∧ m ∈ fallbackEqMaterials S.P ∧
    (∀ x, SatisfiesFallbackEq S x → netProdOf S m x = 0) := by
  have hraw : m ∉ rawMaterials S.P := by
    intro hc
    rw [rawMaterials, mem_sortStr, List.mem_filter] at hc
    exact hin hc.1
  have hint : m ∉ intermediateMaterials S.P := by
    intro hc
    rw [intermediateMaterials, mem_sortStr, List.mem_filter] at hc
    exact hin hc.1
  have hall : m ∈ allMaterials S.P := by
    rw [allMaterials, mem_sortStr, mem_dedupFirst, List.mem_append]
    exact Or.inr hout
  have hfb : m ∈ fallbackEqMaterials S.P :=
    mem_fallbackEqMaterials.mpr ⟨hall, hraw, htgt⟩
  refine ⟨?_, hfb, fun x hx => hx m hfb⟩
  intro hc
  rw [materialsToBalance, mem_sortStr, mem_dedupFirst, List.mem_append] at hc
  rcases hc with hc | hc
  · exact hint hc
  · rw [List.mem_singleton] at hc
    exact htgt hc

theorem C9_witness :
    ("slag" ∈ allOutputMaterials exFP3 ∧ "slag" ∉ allInputMaterials exFP3 ∧
      "slag" ≠ exFP3.target_item) ∧
    ("slag" ∉ materialsToBalance exFP3 ∧ "slag" ∈ fallbackEqMaterials exFP3 ∧
      (∀ x, SatisfiesFallbackEq exFS3 x → netProdOf exFS3 "slag" x = 0)) :=
  ⟨⟨by decide, by decide, by decide⟩,
   C9_byproduct_rows exFS3 "slag" (by decide) (by decide) (by decide)⟩

theorem netCons_eq_dot (S : FactorySolver) (m : String) (x : List ℚ) :
    netConsOf S m x = dotQ (supplyRowOf S m).coeffs x := by
  rw [netConsOf, supplyRowOf, dotQ, List.zipWith_map_left]

theorem qsub_swap_neg (a b : ℚ) : qsub a b = qneg (qsub b a) := by
  rw [qsub_eq, qsub_eq, qneg_eq]
  ring

/-- C6: on a success, each raw material's reported
`raw_consumption_per_min` — the net consumption
`Σ (in - out * prod_mult) * x` the formatter computes — is the raw-supply
row's left-hand side, so the LP's inequality system bounds it by the supply
cap when one is given and below by 0 via the non-production row. -/
theorem C6_raw_caps (S : FactorySolver) (x : List ℚ) (m : String)
    (hm : m ∈ rawMaterials S.P) (hineq : SatisfiesIneq S x) :
    0 ≤ netConsOf S m x ∧
    (∀ cap, pyLookup S.P.raw_supply_per_min m = some cap →
      netConsOf S m x ≤ cap) := by
  have hsupmem : supplyRowOf S m ∈ ineqRows S := by
    rw [ineqRows]
    exact List.mem_append_left _
      (List.mem_append_right _ (List.mem_map.mpr ⟨m, hm, rfl⟩))
  have hnpmem : nonprodRowOf S m ∈ ineqRows S := by
    rw [ineqRows]
    exact List.mem_append_right _ (List.mem_map.mpr ⟨m, hm, rfl⟩)
  constructor
  · have hle := rowSat_le (hineq _ hnpmem) (show (nonprodRowOf S m).bound = some 0 from rfl)
    have hco : (nonprodRowOf S m).coeffs = (recipeList S.P).map (fun r =>
        qneg (qsub (inQty (recipeOf S.P r) m)
          (qmul (outQty (recipeOf S.P r) m) (S.pm r)))) := by
      rw [nonprodRowOf]
      exact List.map_congr_left (fun r _ => qsub_swap_neg _ _)
    rw [hco, dotQ_map_neg, qneg_eq] at hle
    rw [netCons_eq_dot, supplyRowOf]
    linarith
  · intro cap hcap
    have hle := rowSat_le (hineq _ hsupmem)
      (show (supplyRowOf S m).bound = some cap from by rw [supplyRowOf]; exact hcap)
    rw [netCons_eq_dot]
    exact hle

theorem C6_witness :
    ("iron_plate" ∈ rawMaterials exFP1 ∧ SatisfiesIneq exFS1 [10] ∧
      pyLookup exFP1.raw_supply_per_min "iron_plate" = some 5000) ∧
    (0 ≤ netConsOf exFS1 "iron_plate" [10] ∧
      netConsOf exFS1 "iron_plate" [10] ≤ 5000) :=
  ⟨⟨by decide, by decide, by decide⟩,
   ⟨(C6_raw_caps exFS1 [10] "iron_plate" (by decide) (by decide)).1,
    (C6_raw_caps exFS1 [10] "iron_plate" (by decide) (by decide)).2 5000 (by decide)⟩⟩

/-- The demand total as the spec's text defines it: requirements summed over
`R(v) > 0` (no tolerance). -/
def DzeroB (P : BeltsProblem) : ℚ :=
  qsum (P.nodes.map (fun v => if 0 < requirement P v then requirement P v else 0))

/-- The literal statement of claim C4: with `D = Σ R(v) over R(v) > 0`,
solve answers `ok` exactly when the max-flow value meets `D` within 1e-9,
and otherwise answers `infeasible`. -/
def C4Statement : Prop :=
  ∀ (P : BeltsProblem) (fl : List (String × String × ℚ)),
    (∀ e ∈ P.edges, e.loV ≤ e.hi) → MaxFlowReturned P fl →
    ((statusOfB (beltsSolve P fl) = "ok" ↔
      qabs (qsub (netFlowValue P fl) (DzeroB P)) ≤ tolB) ∧
     (statusOfB (beltsSolve P fl) ≠ "ok" →
      statusOfB (beltsSolve P fl) = "infeasible"))

/-- Two forced arcs of weight exactly 1e-9 each: both requirements sit at
the tolerance threshold, so the code counts neither into `total_demand`,
while the spec's `D` counts both. -/
def exBP4 : BeltsProblem :=
  ⟨["s", "a1", "a2", "t"],
   [⟨"s", "a1", some (mkRat 1 1000000000), mkRat 1 1000000000⟩,
    ⟨"s", "a2", some (mkRat 1 1000000000), mkRat 1 1000000000⟩],
   [], [], "t"⟩

/-- C4 counterexample: on `exBP4` the empty flow is maximal and the solver
answers `ok` (its `total_demand` is 0), but the spec's `D` is `2e-9`, which
the max-flow value 0 misses by more than the tolerance. -/
theorem C4_counterexample : ¬ C4Statement := by
  intro h
  have := (h exBP4 [] (by decide) (by decide)).1.mp (by decide)
  exact absurd this (by decide)

/-- C4 (amended): with the code's demand total `D = Σ R(v) over
R(v) > 1e-9` (requirements within tolerance of zero are not wired to the
super source), solve answers `ok` exactly when the max-flow value meets `D`
within 1e-9, and otherwise answers `infeasible` — kernel exceptions aside,
and given `hi ≥ lo` so the validation passes. -/
theorem C4_status_iff (P : BeltsProblem) (fl : List (String × String × ℚ))
    (hedges : ∀ e ∈ P.edges, e.loV ≤ e.hi) (_hmax : MaxFlowReturned P fl) :
    (statusOfB (beltsSolve P fl) = "ok" ↔
      qabs (qsub (netFlowValue P fl) (total_demand P)) ≤ tolB) ∧
    (statusOfB (beltsSolve P fl) ≠ "ok" →
      statusOfB (beltsSolve P fl) = "infeasible") := by
  have hfind : P.edges.find? (fun e => decide (qadd e.hi tolB < e.loV)) = none := by
    rw [List.find?_eq_none]
    intro e he
    simp only [decide_eq_true_eq, not_lt, qadd_eq]
    have h1 := hedges e he
    have h2 : (0 : ℚ) ≤ tolB := by decide
    linarith
  have hsolve : beltsSolve P fl =
      (if tolB < qabs (qsub (netFlowValue P fl) (total_demand P)) then
        BeltsResult.infeasible (cutReachable P fl) (deficitOf P fl)
          (tightNodes P fl) (tightEdges P fl)
      else BeltsResult.ok (totalSupply P) (finalFlows P fl)) := by
    rw [beltsSolve, hfind]
  constructor
  · by_cases hc : tolB < qabs (qsub (netFlowValue P fl) (total_demand P))
    · rw [hsolve, if_pos hc]
      constructor
      · intro h'
        exact absurd h' (by simp [statusOfB])
      · intro hle
        exact absurd hc (not_lt.mpr hle)
    · rw [hsolve, if_neg hc]
      simp only [statusOfB]
      exact ⟨fun _ => not_lt.mp hc, fun _ => by simp⟩
  · intro hne
    by_cases hc : tolB < qabs (qsub (netFlowValue P fl) (total_demand P))
    · rw [hsolve, if_pos hc]
      rfl
    · rw [hsolve, if_neg hc] at hne
      exact absurd rfl hne

/-- The spec's feasible linear chain: supply 50 through two 100-capacity
edges. -/
def exBP4w : BeltsProblem :=
  ⟨["src", "a", "t"], [⟨"src", "a", none, 100⟩, ⟨"a", "t", none, 100⟩],
   [], [("src", 50)], "t"⟩

/-- Its max flow on the auxiliary network. -/
def exFl4w : List (String × String × ℚ) :=
  [(SUPER_SRC, "src", 50), ("src", "a", 50), ("a", "t", 50), ("t", SUPER_SNK, 50)]

theorem C4_witness :
    ((∀ e ∈ exBP4w.edges, e.loV ≤ e.hi) ∧ MaxFlowReturned exBP4w exFl4w) ∧
    (statusOfB (beltsSolve exBP4w exFl4w) = "ok" ↔
      qabs (qsub (netFlowValue exBP4w exFl4w) (total_demand exBP4w)) ≤ tolB) :=
  ⟨⟨by decide, by decide⟩,
   (C4_status_iff exBP4w exFl4w (by decide) (by decide)).1⟩

theorem lastMatch_eq_zero {L : List (String × String × ℚ)} {u v : String}
    (h : ∀ t ∈ L, ¬(t.1 = u ∧ t.2.1 = v)) :
    (((L.reverse.find? (fun t => t.1 = u ∧ t.2.1 = v)).map (·.2.2)).getD 0) = 0 := by
  have hfind : L.reverse.find? (fun t => t.1 = u ∧ t.2.1 = v) = none := by
    rw [List.find?_eq_none]
    intro t ht
    simp only [decide_eq_true_eq]
    exact h t (List.mem_reverse.mp ht)
  rw [hfind]
  rfl

theorem lastMatch_eq_of_unique {L : List (String × String × ℚ)} {u v : String}
    {w : ℚ} (hmem : (u, v, w) ∈ L)
    (huniq : ∀ t ∈ L, t.1 = u → t.2.1 = v → t = (u, v, w)) :
    (((L.reverse.find? (fun t => t.1 = u ∧ t.2.1 = v)).map (·.2.2)).getD 0) = w := by
  have hex : (L.reverse.find? (fun t => t.1 = u ∧ t.2.1 = v)).isSome = true := by
    rw [List.find?_isSome]
    exact ⟨(u, v, w), List.mem_reverse.mpr hmem, by simp⟩
  obtain ⟨t, htfind⟩ := Option.isSome_iff_exists.mp hex
  have hp := List.find?_some htfind
  simp only [decide_eq_true_eq] at hp
  have hteq : t = (u, v, w) :=
    huniq t (List.mem_reverse.mp (List.mem_of_find?_eq_some htfind)) hp.1 hp.2
  rw [htfind, hteq]
  rfl

theorem getLast_append_in (v : String) :
    (v ++ "__in").data.getLast? = some 'n' := by
  rw [String.data_append, List.getLast?_append]
  rfl

theorem getLast_append_out (v : String) :
    (v ++ "__out").data.getLast? = some 't' := by
  rw [String.data_append, List.getLast?_append]
  rfl

theorem ne_of_getLast {a b : String} (h : a.data.getLast? ≠ b.data.getLast?) :
    a ≠ b := fun hc => h (by rw [hc])

theorem sepOK_ne_super {v : String} (h : sepOK v = true) :
    v ≠ SUPER_SRC ∧ v ≠ SUPER_SNK := by
  constructor <;> intro hc <;> subst hc <;> exact absurd h (by decide)

theorem append_in_ne_super (v : String) :
    v ++ "__in" ≠ SUPER_SRC ∧ v ++ "__in" ≠ SUPER_SNK := by
  constructor <;>
    exact ne_of_getLast (by rw [getLast_append_in]; decide)

theorem append_out_ne_super (v : String) :
    v ++ "__out" ≠ SUPER_SRC ∧ v ++ "__out" ≠ SUPER_SNK := by
  constructor <;>
    exact ne_of_getLast (by rw [getLast_append_out]; decide)

theorem internalName_ne_super {P : BeltsProblem} {v : String}
    (h : sepOK v = true) :
    internalName P v ≠ SUPER_SRC ∧ internalName P v ≠ SUPER_SNK := by
  rw [internalName]
  split
  · exact append_in_ne_super v
  · exact sepOK_ne_super h

theorem externalName_ne_super {P : BeltsProblem} {v : String}
    (h : sepOK v = true) :
    externalName P v ≠ SUPER_SRC ∧ externalName P v ≠ SUPER_SNK := by
  rw [externalName]
  split
  · exact append_out_ne_super v
  · exact sepOK_ne_super h

theorem capList_mem_inv {P : BeltsProblem} {t : String × String × ℚ}
    (ht : t ∈ capList P) :
    (∃ v, v ∈ capKeyOrder P ∧ isSplit P v = true ∧
      t = (internalName P v, externalName P v, nodeCapOf P v)) ∨
    (∃ k ∈ aggKeys P, t = (k.1, k.2, totalReduced P k)) ∨
    (∃ v ∈ P.nodes,
      (tolB < requirement P v ∧ t = (SUPER_SRC, internalName P v, requirement P v)) ∨
      (requirement P v < qneg tolB ∧
        t = (externalName P v, SUPER_SNK, qneg (requirement P v)))) := by
  rw [capList, List.mem_append, List.mem_append] at ht
  rcases ht with (hs | ha) | hsup
  · left
    obtain ⟨v, hv, heq⟩ := List.mem_filterMap.mp hs
    by_cases hsplit : isSplit P v = true
    · rw [if_pos hsplit] at heq
      exact ⟨v, hv, hsplit, (Option.some.inj heq).symm⟩
    · rw [if_neg hsplit] at heq
      exact absurd heq (by simp)
  · right; left
    obtain ⟨k, hk, heq⟩ := List.mem_map.mp ha
    exact ⟨k, hk, heq.symm⟩
  · right; right
    obtain ⟨v, hv, heq⟩ := List.mem_filterMap.mp hsup
    refine ⟨v, hv, ?_⟩
    by_cases h1 : tolB < requirement P v
    · rw [if_pos h1] at heq
      exact Or.inl ⟨h1, (Option.some.inj heq).symm⟩
    · rw [if_neg h1] at heq
      by_cases h2 : requirement P v < qneg tolB
      · rw [if_pos h2] at heq
        exact Or.inr ⟨h2, (Option.some.inj heq).symm⟩
      · rw [if_neg h2] at heq
        exact absurd heq (by simp)

/-- The aggregated arc of a `mapped_edge_pairs` key keeps its summed
reduced capacity in the final graph: no later `add_edge` overwrites it
(super arcs carry a super endpoint, which no mapped name equals, and
split-arc keys never coincide with edge keys under unambiguous names). -/
theorem capB_aggKey (P : BeltsProblem) (hwf : WellFormedB P) (hsep : SepOKAll P)
    {k : String × String} (hk : k ∈ aggKeys P) :
    capB P k.1 k.2 = totalReduced P k := by
  obtain ⟨e0, he0, hkey⟩ := List.mem_map.mp (mem_dedupFirst.mp hk)
  have hsrc : e0.src ∈ P.nodes := (hwf.2.1 e0 he0).1
  have hdst : e0.dst ∈ P.nodes := (hwf.2.1 e0 he0).2
  have hsepsrc := hsep _ hsrc
  have hsepdst := hsep _ hdst
  have hk1 : k.1 = externalName P e0.src := by rw [← hkey]; rfl
  have hk2 : k.2 = internalName P e0.dst := by rw [← hkey]; rfl
  rw [capB]
  refine lastMatch_eq_of_unique ?_ ?_
  · rw [capList]
    exact List.mem_append_left _ (List.mem_append_right _
      (List.mem_map.mpr ⟨k, hk, rfl⟩))
  · intro t htl ht1 ht2
    rcases capList_mem_inv htl with ⟨v, _, hsplit, hteq⟩ | ⟨k', hk', hteq⟩ | ⟨v, hv, hcase⟩
    · exfalso
      rw [hteq] at ht1 ht2
      simp only at ht1 ht2
      rw [internalName, if_pos hsplit] at ht1
      rw [hk1, externalName] at ht1
      split at ht1
      · exact append_in_ne_append_out v _ (ht1.trans rfl)
      · exact sepOK_ne_append_sep hsepsrc (by decide) (ht1.symm)
    · rw [hteq]
      have hkk : k' = k := by
        rw [hteq] at ht1 ht2
        exact Prod.ext ht1 ht2
      rw [hkk]
    · exfalso
      rcases hcase with ⟨_, hteq⟩ | ⟨_, hteq⟩
      · rw [hteq] at ht1
        simp only at ht1
        rw [hk1] at ht1
        exact (externalName_ne_super hsepsrc).1 ht1.symm
      · rw [hteq] at ht2
        simp only at ht2
        rw [hk2] at ht2
        exact (internalName_ne_super hsepdst).2 ht2.symm

theorem externalName_mem_VlistB {P : BeltsProblem} {v : String}
    (hv : v ∈ P.nodes) : externalName P v ∈ VlistB P := by
  rw [VlistB, mem_dedupFirst, List.mem_append, List.mem_append]
  exact Or.inl (Or.inr (List.mem_map.mpr ⟨v, hv, rfl⟩))

theorem internalName_mem_VlistB {P : BeltsProblem} {v : String}
    (hv : v ∈ P.nodes) : internalName P v ∈ VlistB P := by
  rw [VlistB, mem_dedupFirst, List.mem_append, List.mem_append]
  exact Or.inl (Or.inl (List.mem_map.mpr ⟨v, hv, rfl⟩))

/-- The literal statement of claim C5: on a feasible run of a well-formed
problem, every returned flow entry respects its arc's `[lo, hi]` bounds,
parallel-aggregated arcs included. -/
def C5Statement : Prop :=
  ∀ (P : BeltsProblem) (fl : List (String × String × ℚ)),
    WellFormedB P → SepOKAll P → MaxFlowReturned P fl →
    ∀ mf flows, beltsSolve P fl = .ok mf flows →
    ∀ e ∈ P.edges, tolB < liftedFlow P fl e →
      e.loV ≤ liftedFlow P fl e ∧ liftedFlow P fl e ≤ e.hi

/-- C5 counterexample: in `exBP7` (well-formed; one arc of the parallel
pair has `hi = lo - 5e-10`, inside the validation's slack) the returned
flow of that arc is `1 - 4/19999999999 < lo = 1`: the negative reduced
capacity gives it a negative share before the lift adds `lo` back. -/
theorem C5_counterexample : ¬ C5Statement := by
  intro h
  have hb := (h exBP7 exFl7 (by decide) (by decide) (by decide)
    (totalSupply exBP7) (finalFlows exBP7 exFl7) (by decide)
    ⟨"s", "k", some 1, qsub 1 (mkRat 1 2000000000)⟩ (by decide) (by decide)).1
  exact absurd hb (by decide)

/-- C5 (amended): on a feasible run of a well-formed problem in which every
edge satisfies `hi ≥ lo` exactly (not merely within the 1e-9 validation
slack), every entry of the returned `flows` list is the lifted flow of one
original arc and satisfies `lo ≤ flow ≤ hi`, arcs aggregated with parallel
arcs and apportioned by reduced-capacity share included. -/
theorem C5_bounds (P : BeltsProblem) (fl : List (String × String × ℚ))
    (hwf : WellFormedB P) (hsep : SepOKAll P) (hmax : MaxFlowReturned P fl)
    (hlohi : ∀ e ∈ P.edges, e.loV ≤ e.hi) (mf : ℚ) (flows : List FlowEntry)
    (hok : beltsSolve P fl = .ok mf flows) :
    ∀ fe ∈ flows, ∃ e ∈ P.edges, fe = ⟨e.src, e.dst, liftedFlow P fl e⟩ ∧
      e.loV ≤ fe.flow ∧ fe.flow ≤ e.hi := by
  intro fe hfe
  obtain ⟨_, hfl⟩ := beltsSolve_ok_inv hok
  rw [hfl, finalFlows, mem_sortBy] at hfe
  obtain ⟨e, he, heq⟩ := List.mem_filterMap.mp hfe
  have hfe_eq : fe = ⟨e.src, e.dst, liftedFlow P fl e⟩ := by
    by_cases hc : tolB < liftedFlow P fl e
    · rw [if_pos hc] at heq
      exact (Option.some.inj heq).symm
    · rw [if_neg hc] at heq
      exact absurd heq (by simp)
  refine ⟨e, he, hfe_eq, ?_⟩
  rw [hfe_eq]
  show e.loV ≤ liftedFlow P fl e ∧ liftedFlow P fl e ≤ e.hi
  have hred : (0 : ℚ) ≤ e.hi - e.loV := by
    have := hlohi e he
    linarith
  have hbounds : e.loV ≤ liftedFlow P fl e ∧ liftedFlow P fl e ≤ e.hi := by
    rw [liftedFlow, originalEdgeFlow]
    split
    · rename_i hT
      set T := totalReduced P (edgeKey P e) with hTdef
      have hTpos : (0 : ℚ) < T := lt_trans (by decide) hT
      have hcap : capB P (edgeKey P e).1 (edgeKey P e).2 = T := by
        rw [hTdef]
        exact capB_aggKey P hwf hsep (mem_dedupFirst.mpr (List.mem_map.mpr ⟨e, he, rfl⟩))
      have hsrcmem : (edgeKey P e).1 ∈ VlistB P :=
        externalName_mem_VlistB (hwf.2.1 e he).1
      have hdstmem : (edgeKey P e).2 ∈ VlistB P :=
        internalName_mem_VlistB (hwf.2.1 e he).2
      obtain ⟨hfnn, hfcap⟩ := hmax.1.2.1 _ hsrcmem _ hdstmem
      rw [hcap] at hfcap
      set f := flowFn fl (edgeKey P e).1 (edgeKey P e).2 with hfdef
      rw [qadd_eq, qmul_eq, qdiv_eq, qsub_eq]
      have hshare_nn : 0 ≤ (e.hi - e.loV) / T * f :=
        mul_nonneg (div_nonneg hred (le_of_lt hTpos)) hfnn
      have hshare_le : (e.hi - e.loV) / T * f ≤ e.hi - e.loV := by
        have h1 : (e.hi - e.loV) / T * f ≤ (e.hi - e.loV) / T * T :=
          mul_le_mul_of_nonneg_left hfcap (div_nonneg hred (le_of_lt hTpos))
        rwa [div_mul_cancel₀ _ (ne_of_gt hTpos)] at h1
      constructor <;> linarith
    · rw [qadd_eq, zero_add]
      exact ⟨le_refl _, hlohi e he⟩
  exact hbounds

/-- The spec's feasible linear chain again, with its lifted entries: the
amended C5 instantiated on `exBP4w`. -/
theorem C5_witness :
    (WellFormedB exBP4w ∧ SepOKAll exBP4w ∧ MaxFlowReturned exBP4w exFl4w ∧
      (∀ e ∈ exBP4w.edges, e.loV ≤ e.hi) ∧
      beltsSolve exBP4w exFl4w = .ok (totalSupply exBP4w) (finalFlows exBP4w exFl4w)) ∧
    (∀ fe ∈ finalFlows exBP4w exFl4w, ∃ e ∈ exBP4w.edges,
      fe = ⟨e.src, e.dst, liftedFlow exBP4w exFl4w e⟩ ∧
      e.loV ≤ fe.flow ∧ fe.flow ≤ e.hi) :=
  ⟨⟨by decide, by decide, by decide, by decide, by decide⟩,
   C5_bounds exBP4w exFl4w (by decide) (by decide) (by decide) (by decide)
     (totalSupply exBP4w) (finalFlows exBP4w exFl4w) (by decide)⟩

/-! ## Supporting facts for the infeasibility diagnosis (claim C2) -/

theorem VlistB_nodup (P : BeltsProblem) : (VlistB P).Nodup := nodup_dedupFirst

theorem SRC_mem_VlistB (P : BeltsProblem) : SUPER_SRC ∈ VlistB P := by
  rw [VlistB, mem_dedupFirst, List.mem_append]
  exact Or.inr (by simp)

theorem SNK_mem_VlistB (P : BeltsProblem) : SUPER_SNK ∈ VlistB P := by
  rw [VlistB, mem_dedupFirst, List.mem_append]
  exact Or.inr (by simp)

theorem VlistB_mem_inv {P : BeltsProblem} {v : String} (hv : v ∈ VlistB P) :
    (∃ w ∈ P.nodes, v = internalName P w) ∨
    (∃ w ∈ P.nodes, v = externalName P w) ∨ v = SUPER_SRC ∨ v = SUPER_SNK := by
  rw [VlistB, mem_dedupFirst, List.mem_append, List.mem_append] at hv
  rcases hv with (h | h) | h
  · obtain ⟨w, hw, heq⟩ := List.mem_map.mp h
    exact Or.inl ⟨w, hw, heq.symm⟩
  · obtain ⟨w, hw, heq⟩ := List.mem_map.mp h
    exact Or.inr (Or.inl ⟨w, hw, heq.symm⟩)
  · rcases List.mem_cons.mp h with h1 | h1
    · exact Or.inr (Or.inr (Or.inl h1))
    · rcases List.mem_cons.mp h1 with h2 | h2
      · exact Or.inr (Or.inr (Or.inr h2))
      · exact absurd h2 (List.not_mem_nil v)

theorem start_subset_VlistB (P : BeltsProblem) : [SUPER_SRC] ⊆ VlistB P := by
  intro a ha
  rw [List.mem_singleton] at ha
  rw [ha]
  exact SRC_mem_VlistB P

theorem residReach_subset {P : BeltsProblem} {fl : List (String × String × ℚ)} :
    residReach P fl ⊆ VlistB P := by
  rw [residReach, bfsClosure]
  exact bfsIter_subset (start_subset_VlistB P) _

theorem SRC_mem_residReach (P : BeltsProblem) (fl : List (String × String × ℚ)) :
    SUPER_SRC ∈ residReach P fl := by
  rw [residReach, bfsClosure]
  exact subset_bfsIter _ (by simp)

theorem residReach_closed {P : BeltsProblem} {fl : List (String × String × ℚ)}
    {u v : String} (hu : u ∈ residReach P fl) (hv : v ∈ VlistB P)
    (hadj : residAdj P fl u v = true) : v ∈ residReach P fl :=
  bfsClosure_closed (VlistB_nodup P) (List.nodup_singleton _)
    (by intro a ha; rw [List.mem_singleton] at ha; rw [ha]; exact SRC_mem_VlistB P)
    (by simp) hu hv hadj

theorem capReachFrom_self (P : BeltsProblem) (s : String) :
    s ∈ capReachFrom P s := by
  rw [capReachFrom, bfsClosure]
  exact subset_bfsIter _ (by simp)

theorem capKeyOrder_subset_nodes {P : BeltsProblem} (hwf : WellFormedB P)
    {v : String} (hv : v ∈ capKeyOrder P) : v ∈ P.nodes := by
  rw [capKeyOrder, mem_dedupFirst] at hv
  obtain ⟨p, hp, heq⟩ := List.mem_map.mp hv
  exact heq ▸ hwf.2.2.1 p hp

theorem internalName_inj {P : BeltsProblem} {v w : String}
    (hv : sepOK v = true) (hw : sepOK w = true)
    (h : internalName P v = internalName P w) : v = w := by
  rw [internalName, internalName] at h
  split at h <;> split at h
  · exact append_in_inj h
  · exact absurd h.symm (sepOK_ne_append_sep hw (by decide))
  · exact absurd h (sepOK_ne_append_sep hv (by decide))
  · exact h

theorem externalName_inj {P : BeltsProblem} {v w : String}
    (hv : sepOK v = true) (hw : sepOK w = true)
    (h : externalName P v = externalName P w) : v = w := by
  rw [externalName, externalName] at h
  split at h <;> split at h
  · exact append_out_inj h
  · exact absurd h.symm (sepOK_ne_append_sep hw (by decide))
  · exact absurd h (sepOK_ne_append_sep hv (by decide))
  · exact h

theorem names_of_source {P : BeltsProblem} {v : String}
    (h : hasKey P.sources v = true) :
    internalName P v = v ∧ externalName P v = v := by
  have hns : isSplit P v = false := by
    rw [isSplit, h]
    simp
  rw [internalName, externalName, hns]
  exact ⟨rfl, rfl⟩

theorem names_of_sink (P : BeltsProblem) :
    internalName P P.sink = P.sink ∧ externalName P P.sink = P.sink := by
  have hns : isSplit P P.sink = false := by
    rw [isSplit]
    simp
  rw [internalName, externalName, hns]
  exact ⟨rfl, rfl⟩

theorem baseName_internalName {P : BeltsProblem} {v : String}
    (h : sepOK v = true) : baseName (internalName P v) = v := by
  rw [internalName]
  split
  · exact baseName_append_in h
  · exact baseName_of_sepOK h

theorem baseName_externalName {P : BeltsProblem} {v : String}
    (h : sepOK v = true) : baseName (externalName P v) = v := by
  rw [externalName]
  split
  · exact baseName_append_out h
  · exact baseName_of_sepOK h

theorem pyLookup_none {β : Type} {l : List (String × β)} {k : String}
    (h : hasKey l k = false) : pyLookup l k = none := by
  rw [pyLookup]
  have : l.reverse.find? (fun p => p.1 = k) = none := by
    rw [List.find?_eq_none]
    intro p hp
    simp only [decide_eq_true_eq]
    intro hc
    rw [hasKey] at h
    have h2 : l.any (fun p => decide (p.1 = k)) = true :=
      List.any_eq_true.mpr ⟨p, List.mem_reverse.mp hp, decide_eq_true hc⟩
    rw [h] at h2
    exact Bool.noConfusion h2
  rw [this]
  rfl

theorem pyLookup_mem {β : Type} {l : List (String × β)} {k : String} {q : β}
    (h : pyLookup l k = some q) : ∃ p ∈ l, p.1 = k ∧ p.2 = q := by
  rw [pyLookup] at h
  rcases hfind : l.reverse.find? (fun p => p.1 = k) with _ | p
  · rw [hfind] at h
    exact absurd h (by simp)
  · rw [hfind] at h
    have hp := List.find?_some hfind
    simp only [decide_eq_true_eq] at hp
    have hmem := List.mem_reverse.mp (List.mem_of_find?_eq_some hfind)
    exact ⟨p, hmem, hp, Option.some.inj h⟩

theorem pyLookup_of_nodup_keys {β : Type} {l : List (String × β)}
    (hnd : (l.map (·.1)).Nodup) {p : String × β} (hp : p ∈ l) :
    pyLookup l p.1 = some p.2 := by
  induction l with
  | nil => exact absurd hp (List.not_mem_nil p)
  | cons hd tl ih =>
    rw [List.map_cons, List.nodup_cons] at hnd
    rcases List.mem_cons.mp hp with heq | htl
    · have hnone : pyLookup tl p.1 = none := by
        refine pyLookup_none ?_
        rw [Bool.eq_false_iff]
        intro hc
        obtain ⟨q, hq, hqeq⟩ := List.any_eq_true.mp hc
        simp only [decide_eq_true_eq] at hqeq
        exact hnd.1 (heq ▸ hqeq ▸ List.mem_map.mpr ⟨q, hq, rfl⟩)
      have hfn : tl.reverse.find? (fun x => x.1 = p.1) = none := by
        rw [pyLookup] at hnone
        rcases hf : tl.reverse.find? (fun x => x.1 = p.1) with _ | x
        · exact hf
        · rw [hf] at hnone
          exact absurd hnone (by simp)
      rw [pyLookup, List.reverse_cons, List.find?_append, hfn]
      simp [heq]
    · have hthis := ih hnd.2 htl
      rw [pyLookup] at hthis
      rw [pyLookup, List.reverse_cons, List.find?_append]
      rcases hf : tl.reverse.find? (fun x => x.1 = p.1) with _ | x
      · rw [hf] at hthis
        exact absurd hthis (by simp)
      · rw [hf] at hthis
        rw [hf]
        exact hthis

/-- All declared lower bounds of the problem are zero (edges either omit
`lo` or set it to `0`); the regime in which the reduction's requirements
are pure supplies. -/
def AllLoZero (P : BeltsProblem) : Prop := ∀ e ∈ P.edges, e.loV = 0

instance (P : BeltsProblem) : Decidable (AllLoZero P) := by
  unfold AllLoZero
  infer_instance

theorem qsum_map_eq_zero {α : Type} {l : List α} {f : α → ℚ}
    (h : ∀ x ∈ l, f x = 0) : qsum (l.map f) = 0 := by
  rw [qsum_eq]
  refine List.sum_eq_zero ?_
  intro q hq
  obtain ⟨x, hx, heq⟩ := List.mem_map.mp hq
  rw [← heq]
  exact h x hx

theorem node_imbalance_zero {P : BeltsProblem} (hlo : AllLoZero P)
    (v : String) : node_imbalance P v = 0 := by
  rw [node_imbalance]
  refine qsum_map_eq_zero ?_
  intro e he
  rw [hlo e he, qsub_eq]
  split <;> split <;> norm_num

theorem requirement_eq {P : BeltsProblem} (hlo : AllLoZero P) (v : String) :
    requirement P v = supplyOf P v - (if v = P.sink then totalSupply P else 0) := by
  rw [requirement, node_imbalance_zero hlo, qadd_eq, qsub_eq, zero_add]

theorem hasKey_true_iff {β : Type} {l : List (String × β)} {k : String} :
    hasKey l k = true ↔ ∃ p ∈ l, p.1 = k := by
  rw [hasKey, List.any_eq_true]
  simp

theorem supplyOf_zero_of_no_key {P : BeltsProblem} {v : String}
    (h : hasKey P.sources v = false) : supplyOf P v = 0 := by
  rw [supplyOf, pyLookup_none h]
  rfl

theorem supplyOf_sink_eq_zero {P : BeltsProblem} (hwf : WellFormedB P) :
    supplyOf P P.sink = 0 :=
  supplyOf_zero_of_no_key hwf.2.2.2.2.2.1

theorem supplyOf_eq_of_mem {P : BeltsProblem} (hwf : WellFormedB P)
    {p : String × ℚ} (hp : p ∈ P.sources) : supplyOf P p.1 = p.2 := by
  rw [supplyOf, pyLookup_of_nodup_keys hwf.2.2.2.2.1 hp]
  rfl

theorem supplyOf_nonneg {P : BeltsProblem} (hwf : WellFormedB P) (v : String) :
    0 ≤ supplyOf P v := by
  rw [supplyOf]
  rcases h : pyLookup P.sources v with _ | q
  · norm_num
  · obtain ⟨p, hp, _, hval⟩ := pyLookup_mem h
    rw [Option.getD_some, ← hval]
    exact (hwf.2.2.2.1 p hp).2

theorem totalSupply_nonneg {P : BeltsProblem} (hwf : WellFormedB P) :
    0 ≤ totalSupply P := by
  rw [totalSupply, qsum_eq]
  refine List.sum_nonneg ?_
  intro q hq
  obtain ⟨p, hp, heq⟩ := List.mem_map.mp hq
  rw [← heq]
  exact (hwf.2.2.2.1 p hp).2

theorem supplyOf_le_totalSupply {P : BeltsProblem} (hwf : WellFormedB P)
    (v : String) : supplyOf P v ≤ totalSupply P := by
  rw [supplyOf]
  rcases h : pyLookup P.sources v with _ | q
  · exact totalSupply_nonneg hwf
  · obtain ⟨p, hp, _, hval⟩ := pyLookup_mem h
    rw [Option.getD_some, ← hval, totalSupply, qsum_eq]
    refine List.single_le_sum ?_ _ (List.mem_map.mpr ⟨p, hp, rfl⟩)
    intro q hq
    obtain ⟨p', hp', heq⟩ := List.mem_map.mp hq
    rw [← heq]
    exact (hwf.2.2.2.1 p' hp').2

theorem requirement_sink {P : BeltsProblem} (hwf : WellFormedB P)
    (hlo : AllLoZero P) : requirement P P.sink = -(totalSupply P) := by
  rw [requirement_eq hlo, if_pos rfl, supplyOf_sink_eq_zero hwf, zero_sub]

theorem requirement_nonsink {P : BeltsProblem} (hlo : AllLoZero P)
    {v : String} (hne : v ≠ P.sink) : requirement P v = supplyOf P v := by
  rw [requirement_eq hlo, if_neg hne, sub_zero]

theorem aggKeys_mem_inv {P : BeltsProblem} {k : String × String}
    (hk : k ∈ aggKeys P) : ∃ e ∈ P.edges, k = edgeKey P e := by
  rw [aggKeys, mem_dedupFirst] at hk
  obtain ⟨e, he, heq⟩ := List.mem_map.mp hk
  exact ⟨e, he, heq.symm⟩

theorem tolB_pos : (0 : ℚ) < tolB := by decide

/-- No `add_edge` of the builder ever targets the super source. -/
theorem capB_into_SRC {P : BeltsProblem} (hwf : WellFormedB P)
    (hsep : SepOKAll P) (u : String) : capB P u SUPER_SRC = 0 := by
  rw [capB]
  refine lastMatch_eq_zero ?_
  intro t ht hc
  rcases capList_mem_inv ht with ⟨v, hv, _, hteq⟩ | ⟨k, hk, hteq⟩ | ⟨v, hv, hcase⟩
  · rw [hteq] at hc
    exact (externalName_ne_super (hsep v (capKeyOrder_subset_nodes hwf hv))).1 hc.2
  · obtain ⟨e, he, hke⟩ := aggKeys_mem_inv hk
    rw [hteq, hke] at hc
    exact (internalName_ne_super (hsep _ (hwf.2.1 e he).2)).1 hc.2
  · rcases hcase with ⟨_, hteq⟩ | ⟨_, hteq⟩
    · rw [hteq] at hc
      exact (internalName_ne_super (hsep v hv)).1 hc.2
    · rw [hteq] at hc
      exact absurd hc.2 (show SUPER_SNK ≠ SUPER_SRC by decide)

/-- No `add_edge` of the builder ever leaves the super sink. -/
theorem capB_out_SNK {P : BeltsProblem} (hwf : WellFormedB P)
    (hsep : SepOKAll P) (v : String) : capB P SUPER_SNK v = 0 := by
  rw [capB]
  refine lastMatch_eq_zero ?_
  intro t ht hc
  rcases capList_mem_inv ht with ⟨w, hw, _, hteq⟩ | ⟨k, hk, hteq⟩ | ⟨w, hw, hcase⟩
  · rw [hteq] at hc
    exact (internalName_ne_super (hsep w (capKeyOrder_subset_nodes hwf hw))).2 hc.1
  · obtain ⟨e, he, hke⟩ := aggKeys_mem_inv hk
    rw [hteq, hke] at hc
    exact (externalName_ne_super (hsep _ (hwf.2.1 e he).1)).2 hc.1
  · rcases hcase with ⟨_, hteq⟩ | ⟨_, hteq⟩
    · rw [hteq] at hc
      exact absurd hc.1 (show SUPER_SRC ≠ SUPER_SNK by decide)
    · rw [hteq] at hc
      exact (externalName_ne_super (hsep w hw)).2 hc.1

/-- An arc out of the super source with non-zero capacity is the
requirement arc of a node whose requirement beats the tolerance. -/
theorem capB_SRC_inv {P : BeltsProblem} (hwf : WellFormedB P)
    (hsep : SepOKAll P) {u : String} (h : capB P SUPER_SRC u ≠ 0) :
    ∃ w ∈ P.nodes, u = internalName P w ∧ tolB < requirement P w := by
  by_contra hcon
  apply h
  rw [capB]
  refine lastMatch_eq_zero ?_
  intro t ht hc
  rcases capList_mem_inv ht with ⟨v, hv, _, hteq⟩ | ⟨k, hk, hteq⟩ | ⟨v, hv, hcase⟩
  · rw [hteq] at hc
    exact (internalName_ne_super (hsep v (capKeyOrder_subset_nodes hwf hv))).1 hc.1
  · obtain ⟨e, he, hke⟩ := aggKeys_mem_inv hk
    rw [hteq, hke] at hc
    exact (externalName_ne_super (hsep _ (hwf.2.1 e he).1)).1 hc.1
  · rcases hcase with ⟨hreq, hteq⟩ | ⟨hreq, hteq⟩
    · rw [hteq] at hc
      exact hcon ⟨v, hv, hc.2.symm, hreq⟩
    · rw [hteq] at hc
      exact (externalName_ne_super (hsep v hv)).1 hc.1

/-- The requirement arc of a node in demand keeps its capacity: no later
`add_edge` hits the pair `(SUPER_SRC, v_in)`. -/
theorem capB_SRC_of_req {P : BeltsProblem} (hwf : WellFormedB P)
    (hsep : SepOKAll P) {w : String} (hw : w ∈ P.nodes)
    (hreq : tolB < requirement P w) :
    capB P SUPER_SRC (internalName P w) = requirement P w := by
  rw [capB]
  refine lastMatch_eq_of_unique ?_ ?_
  · rw [capList]
    refine List.mem_append_right _ ?_
    rw [superArcs]
    refine List.mem_filterMap.mpr ⟨w, hw, ?_⟩
    rw [if_pos hreq]
  · intro t ht ht1 ht2
    rcases capList_mem_inv ht with ⟨v, hv, _, hteq⟩ | ⟨k, hk, hteq⟩ | ⟨v, hv, hcase⟩
    · rw [hteq] at ht1
      exact absurd ht1 (internalName_ne_super (hsep v (capKeyOrder_subset_nodes hwf hv))).1
    · obtain ⟨e, he, hke⟩ := aggKeys_mem_inv hk
      rw [hteq, hke] at ht1
      exact absurd ht1 (externalName_ne_super (hsep _ (hwf.2.1 e he).1)).1
    · rcases hcase with ⟨hr, hteq⟩ | ⟨hr, hteq⟩
      · rw [hteq] at ht2 ⊢
        have hvw : v = w := internalName_inj (hsep v hv) (hsep w hw) ht2
        rw [hvw]
      · rw [hteq] at ht1
        exact absurd ht1 (externalName_ne_super (hsep v hv)).1

/-- A node whose requirement stays within tolerance gets no arc from the
super source. -/
theorem capB_SRC_zero {P : BeltsProblem} (hwf : WellFormedB P)
    (hsep : SepOKAll P) {w : String} (hw : w ∈ P.nodes)
    (hreq : ¬ tolB < requirement P w) :
    capB P SUPER_SRC (internalName P w) = 0 := by
  by_contra h
  obtain ⟨w', hw', heq, hreq'⟩ := capB_SRC_inv hwf hsep h
  have hww : w' = w := internalName_inj (hsep w' hw') (hsep w hw) heq.symm
  rw [hww] at hreq'
  exact hreq hreq'

/-- With all lower bounds zero, the only arc into the super sink leaves the
sink node: every other node's requirement is its non-negative supply. -/
theorem capB_into_SNK_inv {P : BeltsProblem} (hwf : WellFormedB P)
    (hsep : SepOKAll P) (hlo : AllLoZero P) {u : String}
    (h : capB P u SUPER_SNK ≠ 0) : u = P.sink := by
  by_contra hne
  apply h
  rw [capB]
  refine lastMatch_eq_zero ?_
  intro t ht hc
  rcases capList_mem_inv ht with ⟨v, hv, _, hteq⟩ | ⟨k, hk, hteq⟩ | ⟨v, hv, hcase⟩
  · rw [hteq] at hc
    exact (externalName_ne_super (hsep v (capKeyOrder_subset_nodes hwf hv))).2 hc.2
  · obtain ⟨e, he, hke⟩ := aggKeys_mem_inv hk
    rw [hteq, hke] at hc
    exact (internalName_ne_super (hsep _ (hwf.2.1 e he).2)).2 hc.2
  · rcases hcase with ⟨_, hteq⟩ | ⟨hr, hteq⟩
    · rw [hteq] at hc
      exact (internalName_ne_super (hsep v hv)).2 hc.2
    · have hvs : v = P.sink := by
        by_contra hvne
        rw [requirement_nonsink hlo hvne, qneg_eq] at hr
        have h0 := tolB_pos
        have h1 := supplyOf_nonneg hwf v
        linarith
      rw [hteq, hvs, (names_of_sink P).2] at hc
      exact hne hc.1.symm

/-- With positive total supply, the sink's demand arc into the super sink
carries the whole supply. -/
theorem capB_sink_SNK {P : BeltsProblem} (hwf : WellFormedB P)
    (hsep : SepOKAll P) (hlo : AllLoZero P) (hts : tolB < totalSupply P) :
    capB P P.sink SUPER_SNK = totalSupply P := by
  have hrs : requirement P P.sink = -(totalSupply P) := requirement_sink hwf hlo
  have h0 := tolB_pos
  have h1 : ¬ tolB < requirement P P.sink := by
    rw [hrs]
    intro hcon
    linarith
  have h2 : requirement P P.sink < qneg tolB := by
    rw [hrs, qneg_eq]
    linarith
  rw [capB]
  refine lastMatch_eq_of_unique ?_ ?_
  · rw [capList]
    refine List.mem_append_right _ ?_
    rw [superArcs]
    refine List.mem_filterMap.mpr ⟨P.sink, hwf.2.2.2.2.2.2, ?_⟩
    rw [if_neg h1, if_pos h2, (names_of_sink P).2, hrs, qneg_eq, neg_neg]
  · intro t ht ht1 ht2
    rcases capList_mem_inv ht with ⟨v, hv, _, hteq⟩ | ⟨k, hk, hteq⟩ | ⟨v, hv, hcase⟩
    · rw [hteq] at ht2
      exact absurd ht2 (externalName_ne_super (hsep v (capKeyOrder_subset_nodes hwf hv))).2
    · obtain ⟨e, he, hke⟩ := aggKeys_mem_inv hk
      rw [hteq, hke] at ht2
      exact absurd ht2 (internalName_ne_super (hsep _ (hwf.2.1 e he).2)).2
    · rcases hcase with ⟨hr, hteq⟩ | ⟨hr, hteq⟩
      · rw [hteq] at ht2
        exact absurd ht2 (internalName_ne_super (hsep v hv)).2
      · have hvs : v = P.sink := by
          by_contra hvne
          rw [requirement_nonsink hlo hvne, qneg_eq] at hr
          have h3 := supplyOf_nonneg hwf v
          linarith
        rw [hteq, hvs, (names_of_sink P).2, hrs, qneg_eq, neg_neg]

theorem qsum_map_toFinset {α : Type} [DecidableEq α] {l : List α} (f : α → ℚ)
    (hl : l.Nodup) : qsum (l.map f) = ∑ x in l.toFinset, f x := by
  rw [qsum_eq, List.sum_toFinset f hl]

/-- Total flow leaving a vertex of the auxiliary graph. -/
def outFin (P : BeltsProblem) (fl : List (String × String × ℚ)) (u : String) : ℚ :=
  ∑ v in (VlistB P).toFinset, flowFn fl u v

/-- Total flow entering a vertex of the auxiliary graph. -/
def inFin (P : BeltsProblem) (fl : List (String × String × ℚ)) (u : String) : ℚ :=
  ∑ v in (VlistB P).toFinset, flowFn fl v u

theorem netFlowValue_eq (P : BeltsProblem) (fl : List (String × String × ℚ)) :
    netFlowValue P fl = outFin P fl SUPER_SRC - inFin P fl SUPER_SRC := by
  rw [netFlowValue, qsub_eq, qsum_map_toFinset _ (VlistB_nodup P),
    qsum_map_toFinset _ (VlistB_nodup P), outFin, inFin]

theorem cons_Fin {P : BeltsProblem} {fl : List (String × String × ℚ)}
    (feas : FeasibleFlow P fl) {v : String} (hv : v ∈ VlistB P)
    (h1 : v ≠ SUPER_SRC) (h2 : v ≠ SUPER_SNK) : inFin P fl v = outFin P fl v := by
  have h := feas.2.2 v hv h1 h2
  rw [qsum_map_toFinset _ (VlistB_nodup P),
    qsum_map_toFinset _ (VlistB_nodup P)] at h
  exact h

theorem sum_out_eq_sum_in (P : BeltsProblem) (fl : List (String × String × ℚ)) :
    ∑ u in (VlistB P).toFinset, outFin P fl u
      = ∑ u in (VlistB P).toFinset, inFin P fl u := by
  simp only [outFin, inFin]
  exact Finset.sum_comm

/-- Conservation at every intermediate vertex makes the flow's value equal
the net flow into the super sink. -/
theorem netFlowValue_eq_SNK {P : BeltsProblem} {fl : List (String × String × ℚ)}
    (feas : FeasibleFlow P fl) :
    netFlowValue P fl = inFin P fl SUPER_SNK - outFin P fl SUPER_SNK := by
  have hSS : SUPER_SRC ∈ (VlistB P).toFinset :=
    List.mem_toFinset.mpr (SRC_mem_VlistB P)
  have hSK : SUPER_SNK ∈ ((VlistB P).toFinset).erase SUPER_SRC :=
    Finset.mem_erase.mpr ⟨by decide, List.mem_toFinset.mpr (SNK_mem_VlistB P)⟩
  have hglob : ∑ u in (VlistB P).toFinset, (outFin P fl u - inFin P fl u) = 0 := by
    rw [Finset.sum_sub_distrib, sum_out_eq_sum_in, sub_self]
  rw [← Finset.add_sum_erase _ _ hSS, ← Finset.add_sum_erase _ _ hSK] at hglob
  have hz : ∑ u in (((VlistB P).toFinset).erase SUPER_SRC).erase SUPER_SNK,
      (outFin P fl u - inFin P fl u) = 0 := by
    refine Finset.sum_eq_zero ?_
    intro u hu
    have h1 := Finset.mem_erase.mp hu
    have h2 := Finset.mem_erase.mp h1.2
    rw [cons_Fin feas (List.mem_toFinset.mp h2.2) h2.1 h1.1, sub_self]
  rw [hz] at hglob
  rw [netFlowValue_eq]
  linarith

theorem inFin_SRC_zero {P : BeltsProblem} {fl : List (String × String × ℚ)}
    (hwf : WellFormedB P) (hsep : SepOKAll P) (feas : FeasibleFlow P fl) :
    inFin P fl SUPER_SRC = 0 := by
  rw [inFin]
  refine Finset.sum_eq_zero ?_
  intro v hv
  have hvV := List.mem_toFinset.mp hv
  have hb := feas.2.1 v hvV SUPER_SRC (SRC_mem_VlistB P)
  have hc := capB_into_SRC hwf hsep v
  linarith [hb.1, hb.2]

theorem outFin_SNK_zero {P : BeltsProblem} {fl : List (String × String × ℚ)}
    (hwf : WellFormedB P) (hsep : SepOKAll P) (feas : FeasibleFlow P fl) :
    outFin P fl SUPER_SNK = 0 := by
  rw [outFin]
  refine Finset.sum_eq_zero ?_
  intro v hv
  have hvV := List.mem_toFinset.mp hv
  have hb := feas.2.1 SUPER_SNK (SNK_mem_VlistB P) v hvV
  have hc := capB_out_SNK hwf hsep v
  linarith [hb.1, hb.2]

/-- The arcs out of the super source are exactly the tolerance-filtered
requirements, so any feasible flow's value is at most `total_demand`. -/
theorem value_le_total_demand {P : BeltsProblem} {fl : List (String × String × ℚ)}
    (hwf : WellFormedB P) (hsep : SepOKAll P) (feas : FeasibleFlow P fl) :
    netFlowValue P fl ≤ total_demand P := by
  have hcap : ∑ v in (VlistB P).toFinset, capB P SUPER_SRC v = total_demand P := by
    have hinj : ∀ a ∈ P.nodes.toFinset, ∀ b ∈ P.nodes.toFinset,
        internalName P a = internalName P b → a = b := by
      intro a ha b hb hab
      exact internalName_inj (hsep a (List.mem_toFinset.mp ha))
        (hsep b (List.mem_toFinset.mp hb)) hab
    have himg : ∑ v in (P.nodes.toFinset.image (internalName P)), capB P SUPER_SRC v
        = ∑ w in P.nodes.toFinset, capB P SUPER_SRC (internalName P w) :=
      Finset.sum_image hinj
    have hsub : P.nodes.toFinset.image (internalName P) ⊆ (VlistB P).toFinset := by
      intro v hv
      obtain ⟨w, hw, heq⟩ := Finset.mem_image.mp hv
      rw [← heq]
      exact List.mem_toFinset.mpr (internalName_mem_VlistB (List.mem_toFinset.mp hw))
    have hzero : ∀ v ∈ (VlistB P).toFinset,
        v ∉ P.nodes.toFinset.image (internalName P) → capB P SUPER_SRC v = 0 := by
      intro v _ hni
      by_contra h
      obtain ⟨w, hw, heq, _⟩ := capB_SRC_inv hwf hsep h
      exact hni (Finset.mem_image.mpr ⟨w, List.mem_toFinset.mpr hw, heq.symm⟩)
    rw [← Finset.sum_subset hsub hzero, himg, total_demand,
      qsum_map_toFinset _ hwf.1]
    refine Finset.sum_congr rfl ?_
    intro w hw
    by_cases hr : tolB < requirement P w
    · rw [capB_SRC_of_req hwf hsep (List.mem_toFinset.mp hw) hr, if_pos hr]
    · rw [capB_SRC_zero hwf hsep (List.mem_toFinset.mp hw) hr, if_neg hr]
  have h1 : netFlowValue P fl = outFin P fl SUPER_SRC := by
    rw [netFlowValue_eq, inFin_SRC_zero hwf hsep feas, sub_zero]
  rw [h1, ← hcap, outFin]
  refine Finset.sum_le_sum ?_
  intro v hv
  exact (feas.2.1 SUPER_SRC (SRC_mem_VlistB P) v (List.mem_toFinset.mp hv)).2

/-- Over all nodes, the per-node supplies add back up to the total supply. -/
theorem sum_supplyOf {P : BeltsProblem} (hwf : WellFormedB P) :
    ∑ w in P.nodes.toFinset, supplyOf P w = totalSupply P := by
  have hknd : (P.sources.map (·.1)).Nodup := hwf.2.2.2.2.1
  have hsub : (P.sources.map (·.1)).toFinset ⊆ P.nodes.toFinset := by
    intro v hv
    obtain ⟨p, hp, heq⟩ := List.mem_map.mp (List.mem_toFinset.mp hv)
    exact List.mem_toFinset.mpr (heq ▸ (hwf.2.2.2.1 p hp).1)
  have hzero : ∀ v ∈ P.nodes.toFinset, v ∉ (P.sources.map (·.1)).toFinset →
      supplyOf P v = 0 := by
    intro v _ hni
    refine supplyOf_zero_of_no_key ?_
    rw [Bool.eq_false_iff]
    intro hc
    obtain ⟨p, hp, heq⟩ := hasKey_true_iff.mp hc
    exact hni (List.mem_toFinset.mpr (List.mem_map.mpr ⟨p, hp, heq⟩))
  rw [← Finset.sum_subset hsub hzero, ← qsum_map_toFinset _ hknd,
    totalSupply, List.map_map]
  congr 1
  refine List.map_congr_left ?_
  intro p hp
  exact supplyOf_eq_of_mem hwf hp

/-- With all lower bounds zero the accumulated demand never exceeds the
total supply. -/
theorem total_demand_le_totalSupply {P : BeltsProblem} (hwf : WellFormedB P)
    (hlo : AllLoZero P) : total_demand P ≤ totalSupply P := by
  rw [total_demand, qsum_map_toFinset _ hwf.1, ← sum_supplyOf hwf]
  refine Finset.sum_le_sum ?_
  intro w _
  by_cases hr : tolB < requirement P w
  · rw [if_pos hr]
    by_cases hs : w = P.sink
    · exfalso
      rw [hs, requirement_sink hwf hlo] at hr
      have h0 := tolB_pos
      have h1 := totalSupply_nonneg hwf
      linarith
    · rw [requirement_nonsink hlo hs]
  · rw [if_neg hr]
    exact supplyOf_nonneg hwf w

theorem singleton_subset_V {P : BeltsProblem} {s : String} (hs : s ∈ VlistB P) :
    [s] ⊆ VlistB P := by
  intro a ha
  rw [List.mem_singleton] at ha
  rw [ha]
  exact hs

theorem capReachFrom_subset {P : BeltsProblem} {s : String} (hs : s ∈ VlistB P) :
    capReachFrom P s ⊆ VlistB P := by
  rw [capReachFrom, bfsClosure]
  exact bfsIter_subset (singleton_subset_V hs) _

theorem capReachFrom_closed {P : BeltsProblem} {s : String} (hs : s ∈ VlistB P)
    {u v : String} (hu : u ∈ capReachFrom P s) (hv : v ∈ VlistB P)
    (hadj : capAdj P u v = true) : v ∈ capReachFrom P s :=
  bfsClosure_closed (VlistB_nodup P) (List.nodup_singleton _)
    (singleton_subset_V hs) (by simp) hu hv hadj

/-- No positive-capacity arc enters the super source, so it is never
capacity-reachable from a proper vertex. -/
theorem SRC_not_mem_capReachFrom {P : BeltsProblem} (hwf : WellFormedB P)
    (hsep : SepOKAll P) {s : String} (hsne : s ≠ SUPER_SRC)
    (hmem : SUPER_SRC ∈ capReachFrom P s) : False := by
  obtain ⟨s', hs', hchain⟩ := bfsClosure_sound hmem
  rw [List.mem_singleton] at hs'
  subst hs'
  rcases Relation.ReflTransGen.cases_tail hchain with heq | ⟨c, _, hstep⟩
  · exact hsne heq.symm
  · have hadj := hstep.1
    rw [capAdj, capB_into_SRC hwf hsep c, decide_eq_true_eq] at hadj
    exact lt_irrefl 0 hadj

/-- With all lower bounds zero the only arc into the super sink leaves the
sink node, so the super sink is capacity-reachable only through the sink. -/
theorem SNK_not_mem_capReachFrom {P : BeltsProblem} (hwf : WellFormedB P)
    (hsep : SepOKAll P) (hlo : AllLoZero P) {s : String} (hs : s ∈ VlistB P)
    (hsne : s ≠ SUPER_SNK) (hsink : P.sink ∉ capReachFrom P s)
    (hmem : SUPER_SNK ∈ capReachFrom P s) : False := by
  obtain ⟨s', hs', hchain⟩ := bfsClosure_sound hmem
  rw [List.mem_singleton] at hs'
  subst hs'
  rcases Relation.ReflTransGen.cases_tail hchain with heq | ⟨c, hcchain, hstep⟩
  · exact hsne heq.symm
  · have hadj := hstep.1
    rw [capAdj, decide_eq_true_eq] at hadj
    have hcs : c = P.sink := capB_into_SNK_inv hwf hsep hlo (ne_of_gt hadj)
    have hcR : c ∈ capReachFrom P s' := by
      rw [capReachFrom]
      exact bfsClosure_complete (VlistB_nodup P) (List.nodup_singleton _)
        (singleton_subset_V hs) (by simp) (List.mem_singleton_self s') hcchain
    rw [hcs] at hcR
    exact hsink hcR

/-- The region argument: the vertices capacity-reachable from `s` form a
set closed under positive-capacity arcs that misses both super endpoints
when the sink is unreachable; conservation then forces every flow entering
the region from outside to vanish. -/
theorem cross_flow_zero {P : BeltsProblem} {fl : List (String × String × ℚ)}
    (hwf : WellFormedB P) (hsep : SepOKAll P) (hlo : AllLoZero P)
    (feas : FeasibleFlow P fl) {s : String} (hs : s ∈ VlistB P)
    (hsSS : s ≠ SUPER_SRC) (hsSK : s ≠ SUPER_SNK)
    (hsink : P.sink ∉ capReachFrom P s)
    {u v : String} (hu : u ∈ capReachFrom P s) (hv : v ∈ VlistB P)
    (hvn : v ∉ capReachFrom P s) : flowFn fl v u = 0 := by
  have hDsub : (capReachFrom P s).toFinset ⊆ (VlistB P).toFinset := by
    intro a ha
    exact List.mem_toFinset.mpr (capReachFrom_subset hs (List.mem_toFinset.mp ha))
  have hout : ∀ a ∈ (capReachFrom P s).toFinset,
      ∀ b ∈ (VlistB P).toFinset \ (capReachFrom P s).toFinset,
      flowFn fl a b = 0 := by
    intro a ha b hb
    have hbV := List.mem_toFinset.mp (Finset.mem_sdiff.mp hb).1
    have hbn : b ∉ capReachFrom P s := fun hc =>
      (Finset.mem_sdiff.mp hb).2 (List.mem_toFinset.mpr hc)
    have haR := List.mem_toFinset.mp ha
    have haV := capReachFrom_subset hs haR
    have hcapn : ¬ capAdj P a b = true := fun hc =>
      hbn (capReachFrom_closed hs haR hbV hc)
    rw [capAdj, decide_eq_true_eq] at hcapn
    have hcap0 : capB P a b ≤ 0 := le_of_not_lt hcapn
    have hb1 := (feas.2.1 a haV b hbV).1
    have hb2 := (feas.2.1 a haV b hbV).2
    linarith
  have hcons : ∀ a ∈ (capReachFrom P s).toFinset,
      inFin P fl a = outFin P fl a := by
    intro a ha
    have haR := List.mem_toFinset.mp ha
    have haV := capReachFrom_subset hs haR
    have haSS : a ≠ SUPER_SRC := by
      intro hc
      exact SRC_not_mem_capReachFrom hwf hsep hsSS (hc ▸ haR)
    have haSK : a ≠ SUPER_SNK := by
      intro hc
      exact SNK_not_mem_capReachFrom hwf hsep hlo hs hsSK hsink (hc ▸ haR)
    exact cons_Fin feas haV haSS haSK
  have hsum : ∑ a in (capReachFrom P s).toFinset,
      ∑ b in (VlistB P).toFinset \ (capReachFrom P s).toFinset,
      flowFn fl b a = 0 := by
    have htot : ∑ a in (capReachFrom P s).toFinset, inFin P fl a
        = ∑ a in (capReachFrom P s).toFinset, outFin P fl a :=
      Finset.sum_congr rfl hcons
    have hin : ∀ a : String, inFin P fl a
        = (∑ b in (VlistB P).toFinset \ (capReachFrom P s).toFinset, flowFn fl b a)
          + ∑ b in (capReachFrom P s).toFinset, flowFn fl b a :=
      fun a => (Finset.sum_sdiff hDsub).symm
    have hout2 : ∀ a : String, outFin P fl a
        = (∑ b in (VlistB P).toFinset \ (capReachFrom P s).toFinset, flowFn fl a b)
          + ∑ b in (capReachFrom P s).toFinset, flowFn fl a b :=
      fun a => (Finset.sum_sdiff hDsub).symm
    simp only [hin, hout2] at htot
    rw [Finset.sum_add_distrib, Finset.sum_add_distrib] at htot
    have hcomm : ∑ a in (capReachFrom P s).toFinset,
        ∑ b in (capReachFrom P s).toFinset, flowFn fl b a
        = ∑ a in (capReachFrom P s).toFinset,
          ∑ b in (capReachFrom P s).toFinset, flowFn fl a b := Finset.sum_comm
    have hcross0 : ∑ a in (capReachFrom P s).toFinset,
        ∑ b in (VlistB P).toFinset \ (capReachFrom P s).toFinset,
        flowFn fl a b = 0 := by
      refine Finset.sum_eq_zero ?_
      intro a ha
      refine Finset.sum_eq_zero ?_
      intro b hb
      exact hout a ha b hb
    rw [hcomm, hcross0] at htot
    linarith
  have hnn : ∀ a ∈ (capReachFrom P s).toFinset,
      0 ≤ ∑ b in (VlistB P).toFinset \ (capReachFrom P s).toFinset,
        flowFn fl b a := by
    intro a ha
    refine Finset.sum_nonneg ?_
    intro b hb
    exact (feas.2.1 b (List.mem_toFinset.mp (Finset.mem_sdiff.mp hb).1) a
      (capReachFrom_subset hs (List.mem_toFinset.mp ha))).1
  have hz1 := (Finset.sum_eq_zero_iff_of_nonneg hnn).mp hsum u
    (List.mem_toFinset.mpr hu)
  have hnn2 : ∀ b ∈ (VlistB P).toFinset \ (capReachFrom P s).toFinset,
      0 ≤ flowFn fl b u := by
    intro b hb
    exact (feas.2.1 b (List.mem_toFinset.mp (Finset.mem_sdiff.mp hb).1) u
      (capReachFrom_subset hs hu)).1
  have hvD : v ∈ (VlistB P).toFinset \ (capReachFrom P s).toFinset :=
    Finset.mem_sdiff.mpr ⟨List.mem_toFinset.mpr hv,
      fun hc => hvn (List.mem_toFinset.mp hc)⟩
  exact (Finset.sum_eq_zero_iff_of_nonneg hnn2).mp hz1 v hvD

theorem beltsSolve_infeasible_inv {P : BeltsProblem}
    {fl : List (String × String × ℚ)} {cr : List String} {db : ℚ}
    {tn : List String} {te : List TightEdge}
    (h : beltsSolve P fl = .infeasible cr db tn te) :
    tolB < qabs (qsub (netFlowValue P fl) (total_demand P)) ∧
    cr = cutReachable P fl ∧ db = deficitOf P fl := by
  rw [beltsSolve] at h
  split at h
  · exact absurd h (by simp)
  · split at h
    · rw [BeltsResult.infeasible.injEq] at h
      exact ⟨by assumption, h.1.symm, h.2.1.symm⟩
    · exact absurd h (by simp)

/-- A source whose supply beats the tolerance and which cannot reach the
sink through positive-capacity arcs sits on the reachable side of the
returned cut: its requirement arc from the super source cannot be
saturated, so it stays residual-reachable. -/
theorem source_in_cutReachable {P : BeltsProblem}
    {fl : List (String × String × ℚ)} (hwf : WellFormedB P) (hsep : SepOKAll P)
    (hlo : AllLoZero P) (hmf : MaxFlowReturned P fl) {p : String × ℚ}
    (hp : p ∈ P.sources) (hq : tolB < p.2)
    (hnr : P.sink ∉ capReachFrom P p.1) : p.1 ∈ cutReachable P fl := by
  have feas := hmf.1
  have hsN : p.1 ∈ P.nodes := (hwf.2.2.2.1 p hp).1
  have hsepS := hsep _ hsN
  have hkey : hasKey P.sources p.1 = true := hasKey_true_iff.mpr ⟨p, hp, rfl⟩
  have hnames := names_of_source hkey
  have hsup : supplyOf P p.1 = p.2 := supplyOf_eq_of_mem hwf hp
  have hsnk : p.1 ≠ P.sink := by
    intro hc
    rw [hc, hwf.2.2.2.2.2.1] at hkey
    exact Bool.noConfusion hkey
  have hreq : requirement P p.1 = p.2 := by
    rw [requirement_nonsink hlo hsnk, hsup]
  have hV : p.1 ∈ VlistB P := by
    have hm := internalName_mem_VlistB hsN
    rw [hnames.1] at hm
    exact hm
  have hcapSS : capB P SUPER_SRC p.1 = p.2 := by
    have hc := capB_SRC_of_req hwf hsep hsN (by rw [hreq]; exact hq)
    rw [hnames.1, hreq] at hc
    exact hc
  have hne1 : p.1 ≠ SUPER_SRC := (sepOK_ne_super hsepS).1
  have hne2 : p.1 ≠ SUPER_SNK := (sepOK_ne_super hsepS).2
  have hf0 : flowFn fl SUPER_SRC p.1 = 0 := by
    refine cross_flow_zero hwf hsep hlo feas hV hne1 hne2 hnr
      (capReachFrom_self P p.1) (SRC_mem_VlistB P) ?_
    intro hc
    exact SRC_not_mem_capReachFrom hwf hsep hne1 hc
  have hadj : residAdj P fl SUPER_SRC p.1 = true := by
    rw [residAdj, Bool.or_eq_true]
    left
    rw [decide_eq_true_eq, hf0, hcapSS]
    have h0 := tolB_pos
    linarith
  have hres : p.1 ∈ residReach P fl :=
    residReach_closed (SRC_mem_residReach P fl) hV hadj
  rw [cutReachable, mem_sortStr, mem_dedupFirst, reachableBases]
  refine List.mem_map.mpr ⟨p.1, ?_, baseName_of_sepOK hsepS⟩
  refine List.mem_filter.mpr ⟨hres, ?_⟩
  rw [Bool.and_eq_true, Bool.not_eq_true', Bool.not_eq_true']
  exact ⟨beq_eq_false_iff_ne.mpr hne1, beq_eq_false_iff_ne.mpr hne2⟩

/-- On an infeasible run the sink never lands in `cut_reachable`: either the
total supply is within tolerance (then demand and value both vanish and the
infeasible branch is unreachable), or the sink's saturated demand arc would
put the super sink itself on the reachable side, contradicting maximality. -/
theorem sink_not_in_cutReachable {P : BeltsProblem}
    {fl : List (String × String × ℚ)} (hwf : WellFormedB P) (hsep : SepOKAll P)
    (hlo : AllLoZero P) (hmf : MaxFlowReturned P fl)
    (hbr : tolB < qabs (qsub (netFlowValue P fl) (total_demand P))) :
    P.sink ∉ cutReachable P fl := by
  intro hmem
  have feas := hmf.1
  rw [cutReachable, mem_sortStr, mem_dedupFirst, reachableBases] at hmem
  obtain ⟨v, hvf, hbase⟩ := List.mem_map.mp hmem
  have hvres := (List.mem_filter.mp hvf).1
  have hvb := (List.mem_filter.mp hvf).2
  rw [Bool.and_eq_true, Bool.not_eq_true', Bool.not_eq_true'] at hvb
  have hvSS : v ≠ SUPER_SRC := beq_eq_false_iff_ne.mp hvb.1
  have hvSK : v ≠ SUPER_SNK := beq_eq_false_iff_ne.mp hvb.2
  have hvV : v ∈ VlistB P := residReach_subset hvres
  have hvsink : v = P.sink := by
    rcases VlistB_mem_inv hvV with ⟨w, hw, heq⟩ | ⟨w, hw, heq⟩ | heq | heq
    · have hb : baseName v = w := by
        rw [heq]
        exact baseName_internalName (hsep w hw)
      have hws : w = P.sink := by rw [← hb, hbase]
      rw [heq, hws, (names_of_sink P).1]
    · have hb : baseName v = w := by
        rw [heq]
        exact baseName_externalName (hsep w hw)
      have hws : w = P.sink := by rw [← hb, hbase]
      rw [heq, hws, (names_of_sink P).2]
    · exact absurd heq hvSS
    · exact absurd heq hvSK
  rw [hvsink] at hvres
  have hvle := value_le_total_demand hwf hsep feas
  by_cases hts : tolB < totalSupply P
  case neg =>
    have htd : total_demand P = 0 := by
      rw [total_demand]
      refine qsum_map_eq_zero ?_
      intro w _
      rw [if_neg]
      intro hc
      by_cases hws : w = P.sink
      · rw [hws, requirement_sink hwf hlo] at hc
        have h0 := tolB_pos
        have h1 := totalSupply_nonneg hwf
        linarith
      · rw [requirement_nonsink hlo hws] at hc
        have h1 := supplyOf_le_totalSupply hwf w
        rw [not_lt] at hts
        linarith
    have hv1 : netFlowValue P fl = outFin P fl SUPER_SRC := by
      rw [netFlowValue_eq, inFin_SRC_zero hwf hsep feas, sub_zero]
    have hv2 : 0 ≤ outFin P fl SUPER_SRC := by
      rw [outFin]
      refine Finset.sum_nonneg ?_
      intro b hb
      exact (feas.2.1 SUPER_SRC (SRC_mem_VlistB P) b (List.mem_toFinset.mp hb)).1
    have hval0 : netFlowValue P fl = 0 := by
      rw [htd] at hvle
      rw [hv1] at hvle ⊢
      linarith
    rw [qsub_eq, qabs_eq, hval0, htd, sub_self, abs_zero] at hbr
    have h0 := tolB_pos
    linarith
  case pos =>
    have hcapsk := capB_sink_SNK hwf hsep hlo hts
    have hsinkV : P.sink ∈ VlistB P := by
      have hm := internalName_mem_VlistB hwf.2.2.2.2.2.2
      rw [(names_of_sink P).1] at hm
      exact hm
    have hfb := feas.2.1 P.sink hsinkV SUPER_SNK (SNK_mem_VlistB P)
    have hnores : ¬ residAdj P fl P.sink SUPER_SNK = true := by
      intro hc
      exact hmf.2 (residReach_closed hvres (SNK_mem_VlistB P) hc)
    rw [residAdj, Bool.or_eq_true, decide_eq_true_eq, decide_eq_true_eq] at hnores
    push_neg at hnores
    have hsat : flowFn fl P.sink SUPER_SNK = capB P P.sink SUPER_SNK := by
      have h1 := hnores.1
      linarith [hfb.2]
    have hval := netFlowValue_eq_SNK feas
    rw [outFin_SNK_zero hwf hsep feas, sub_zero] at hval
    have hge : totalSupply P ≤ inFin P fl SUPER_SNK := by
      rw [inFin]
      have hmem2 : P.sink ∈ (VlistB P).toFinset := List.mem_toFinset.mpr hsinkV
      have hnonneg : ∀ b ∈ (VlistB P).toFinset, 0 ≤ flowFn fl b SUPER_SNK := by
        intro b hb
        exact (feas.2.1 b (List.mem_toFinset.mp hb) SUPER_SNK (SNK_mem_VlistB P)).1
      have hsle := Finset.single_le_sum hnonneg hmem2
      rw [hsat, hcapsk] at hsle
      exact hsle
    have htdle := total_demand_le_totalSupply hwf hlo
    have heq2 : netFlowValue P fl = total_demand P := by
      linarith [hvle, hge, htdle, hval]
    rw [qsub_eq, qabs_eq, heq2, sub_self, abs_zero] at hbr
    have h0 := tolB_pos
    linarith

/-- The literal statement of claim C2: whenever solve reports infeasible
(the kernel having returned a genuine max flow), the deficit is positive,
`cut_reachable` contains every source with positive supply that cannot
reach the sink through positive-capacity arcs, and excludes the sink. -/
def C2Statement : Prop :=
  ∀ (P : BeltsProblem) (fl : List (String × String × ℚ))
    (cr : List String) (db : ℚ) (tn : List String) (te : List TightEdge),
    MaxFlowReturned P fl →
    beltsSolve P fl = .infeasible cr db tn te →
    0 < db ∧
    (∀ p ∈ P.sources, 0 < p.2 → P.sink ∉ capReachFrom P p.1 → p.1 ∈ cr) ∧
    P.sink ∉ cr

/-- Fixed (`lo = hi`) edges force requirements on both endpoints; the sink
`k` ends up in demand and therefore residual-reachable straight from the
super source, sources `s` (in surplus), `z__q` (reported under its mangled
base name `z`) and `w` (below tolerance, hence without a requirement arc)
all miss `cut_reachable`. -/
def exBP2 : BeltsProblem :=
  ⟨["b", "c", "k", "s", "z__q", "w"],
   [⟨"s", "b", some 100, 100⟩, ⟨"c", "k", some 10, 10⟩],
   [],
   [("s", 5), ("z__q", 4), ("w", mkRat 1 2000000000)],
   "k"⟩

/-- C2 fails as stated: on `exBP2` the zero flow is maximal, the run is
infeasible, yet the sink `k` itself appears in `cut_reachable`. -/
theorem C2_counterexample : ¬ C2Statement := by
  intro h
  have h2 := h exBP2 [] (cutReachable exBP2 []) (deficitOf exBP2 [])
    (tightNodes exBP2 []) (tightEdges exBP2 []) (by decide) (by decide)
  exact h2.2.2 (by decide)

/-- C2 (amended): for a well-formed belts problem with unambiguous names
and all lower bounds zero, on an infeasible run with a maximal kernel flow
the deficit `demand_balance` is strictly positive, `cut_reachable` contains
every source whose supply beats the 1e-9 tolerance and which cannot reach
the sink through positive-capacity arcs of the auxiliary graph, and
`cut_reachable` never contains the sink. -/
theorem C2_infeasible_cut (P : BeltsProblem) (fl : List (String × String × ℚ))
    (cr : List String) (db : ℚ) (tn : List String) (te : List TightEdge)
    (hwf : WellFormedB P) (hsep : SepOKAll P) (hlo : AllLoZero P)
    (hmf : MaxFlowReturned P fl)
    (h : beltsSolve P fl = .infeasible cr db tn te) :
    0 < db ∧
    (∀ p ∈ P.sources, tolB < p.2 → P.sink ∉ capReachFrom P p.1 → p.1 ∈ cr) ∧
    P.sink ∉ cr := by
  obtain ⟨hbr, hcr, hdb⟩ := beltsSolve_infeasible_inv h
  have hvle := value_le_total_demand hwf hsep hmf.1
  refine ⟨?_, ?_, ?_⟩
  · rw [hdb, deficitOf, qsub_eq]
    rw [qsub_eq, qabs_eq] at hbr
    have h0 := tolB_pos
    rw [abs_of_nonpos (by linarith)] at hbr
    linarith
  · intro p hp hq hnr
    rw [hcr]
    exact source_in_cutReachable hwf hsep hlo hmf hp hq hnr
  · rw [hcr]
    exact sink_not_in_cutReachable hwf hsep hlo hmf hbr

/-- A bottlenecked chain: supply 50 at `src`, sink capacity 20 on the last
belt, and the max flow 20 leaves a deficit of 30. -/
def exBP2w : BeltsProblem :=
  ⟨["src", "a", "snk"],
   [⟨"src", "a", none, 100⟩, ⟨"a", "snk", some 0, 20⟩],
   [],
   [("src", 50)],
   "snk"⟩

/-- The maximal kernel flow for `exBP2w`: 20 units along the chain. -/
def exFl2w : List (String × String × ℚ) :=
  [(SUPER_SRC, "src", 20), ("src", "a", 20), ("a", "snk", 20),
   ("snk", SUPER_SNK, 20)]

theorem C2_witness :
    0 < deficitOf exBP2w exFl2w ∧
    (∀ p ∈ exBP2w.sources, tolB < p.2 →
      exBP2w.sink ∉ capReachFrom exBP2w p.1 → p.1 ∈ cutReachable exBP2w exFl2w) ∧
    exBP2w.sink ∉ cutReachable exBP2w exFl2w :=
  C2_infeasible_cut exBP2w exFl2w (cutReachable exBP2w exFl2w)
    (deficitOf exBP2w exFl2w) (tightNodes exBP2w exFl2w)
    (tightEdges exBP2w exFl2w) (by decide) (by decide) (by decide) (by decide)
    (by decide)
